import Mathlib

/-!
Shallow embedding of `rutas_cisternas.py`: a directed weighted graph store
(`GrafoRutasCisternas`) and its Dijkstra shortest-path query.

Python dictionaries are modelled as partial maps `κ → Option α`, where `none`
models an absent key (a lookup of an absent key raises `KeyError`).  The
`defaultdict(list)` adjacency map inserts an empty list on a read miss, so
read access is modelled as returning the (possibly) updated map as well.
The `heapq` frontier is modelled as a list popped at the minimum entry under
Python's lexicographic tuple order; the loops are run on explicit fuel, with
theorems showing the chosen fuel is never exhausted.  All the program's edge
weights and distances are non-negative integers, plus the `float('inf')`
sentinel, modelled by `PyFloat`.
-/

/-- Nodes of the road network (Python ints). -/
abbrev Node := ℕ

/-- Update/insert a key in a Python-dict-as-partial-map. -/
def upd {κ α : Type} [DecidableEq κ] (m : κ → Option α) (k : κ) (v : α) : κ → Option α :=
  fun x => if x = k then some v else m x

@[simp] theorem upd_self {κ α : Type} [DecidableEq κ] (m : κ → Option α) (k : κ) (v : α) :
    upd m k v k = some v := by simp [upd]

theorem upd_ne {κ α : Type} [DecidableEq κ] (m : κ → Option α) (k x : κ) (v : α)
    (h : x ≠ k) : upd m k v x = m x := by simp [upd, h]

/-- The numeric values `distancias` can hold: ints, or the `float('inf')` sentinel. -/
inductive PyFloat where
  | inf : PyFloat
  | val : ℕ → PyFloat
deriving DecidableEq, Repr

/-- The comparison `nueva_distancia < distancias[vecino]` (an int against a PyFloat). -/
def ltFloat (n : ℕ) : PyFloat → Bool
  | .inf => true
  | .val m => decide (n < m)

/-- The state of a `GrafoRutasCisternas` object: `self.grafo` (a `defaultdict(list)`),
`self.vertices` (a set), `self.pesos` (a dict keyed by ordered pairs). -/
structure Grafo where
  grafo : Node → Option (List Node)
  vertices : Finset Node
  pesos : Node × Node → Option ℕ

/-- `GrafoRutasCisternas.__init__`. -/
def Grafo.nuevo : Grafo :=
  { grafo := fun _ => none, vertices := ∅, pesos := fun _ => none }

/-- Reading `m[u]` on a `defaultdict(list)`: a missing key is inserted with `[]`.
Returns the value read together with the (possibly updated) map. -/
def getDefault (m : Node → Option (List Node)) (u : Node) :
    List Node × (Node → Option (List Node)) :=
  match m u with
  | some l => (l, m)
  | none => ([], upd m u [])

/-- The neighbor list the algorithm observes at `u` (reading through the defaultdict). -/
def adj (m : Node → Option (List Node)) (u : Node) : List Node :=
  (m u).getD []

/-- `agregar_arista(self, u, v, peso)`: append `v` to `self.grafo[u]`, register both
endpoints in `self.vertices`, record the weight under the ordered pair (u, v). -/
def agregar_arista (g : Grafo) (u v : Node) (peso : ℕ) : Grafo :=
  let p := getDefault g.grafo u
  { grafo := upd p.2 u (p.1 ++ [v])
    vertices := insert v (insert u g.vertices)
    pesos := upd g.pesos (u, v) peso }

/-- Building a graph by inserting a list of edges in order (the `for u, v, peso in
aristas_red` loop of the script). -/
def buildGrafo (l : List (Node × Node × ℕ)) : Grafo :=
  l.foldl (fun g e => agregar_arista g e.1 e.2.1 e.2.2) Grafo.nuevo

/-- Well-formedness maintained by `agregar_arista`: any observable neighbor relation
has both endpoints registered and a recorded weight. -/
def Grafo.WF (g : Grafo) : Prop :=
  ∀ u v, v ∈ adj g.grafo u → u ∈ g.vertices ∧ v ∈ g.vertices ∧ (g.pesos (u, v)).isSome

/-- Working state of one `dijkstra` invocation: the dicts `distancias` and `padre`,
the set `visitados`, the heap `cola_prioridad`, and the graph's adjacency map
(which the query itself can touch through the defaultdict). -/
structure Estado where
  distancias : Node → Option PyFloat
  padre : Node → Option (Option Node)
  visitados : Finset Node
  cola : List (ℕ × Node)
  gmapa : Node → Option (List Node)

/-- Failure modes: a Python `KeyError`, or exhaustion of the modelling fuel. -/
inductive Falla where
  | keyErr : Falla
  | fuelOut : Falla
deriving DecidableEq, Repr

/-- Python's tuple comparison `(d1, v1) < (d2, v2)` used by the heap. -/
def tupLt (a b : ℕ × ℕ) : Bool :=
  decide (a.1 < b.1) || (decide (a.1 = b.1) && decide (a.2 < b.2))

/-- The least entry of a nonempty frontier under the tuple order (what
`heapq.heappop` returns). -/
def menorEntrada (x : ℕ × ℕ) (xs : List (ℕ × ℕ)) : ℕ × ℕ :=
  xs.foldl (fun m y => if tupLt y m then y else m) x

/-- One relaxation step of the `for vecino in self.grafo[vertice_actual]` loop. -/
def relajar (pesos : Node × Node → Option ℕ) (d : ℕ) (u : Node) (st : Estado)
    (vecino : Node) : Estado × Option Falla :=
  match pesos (u, vecino) with
  | none => (st, some .keyErr)
  | some w =>
    match st.distancias vecino with
    | none => (st, some .keyErr)
    | some dv =>
      if ltFloat (d + w) dv then
        ({ st with
            distancias := upd st.distancias vecino (.val (d + w))
            padre := upd st.padre vecino (some u)
            cola := st.cola ++ [(d + w, vecino)] }, none)
      else (st, none)

/-- The whole neighbor loop, relaxing each neighbor in order. -/
def relajarTodos (pesos : Node × Node → Option ℕ) (d : ℕ) (u : Node) :
    Estado → List Node → Estado × Option Falla
  | st, [] => (st, none)
  | st, v :: vs =>
    match relajar pesos d u st v with
    | (st', none) => relajarTodos pesos d u st' vs
    | (st', some e) => (st', some e)

/-- The `while cola_prioridad:` loop: pop the least entry, skip it if the node is
already settled, settle it, exit early at the target, otherwise relax all
neighbors read through the defaultdict. -/
def buclePrincipal (pesos : Node × Node → Option ℕ) (destino : Node) :
    ℕ → Estado → Estado × Option Falla
  | 0, st => if st.cola.isEmpty then (st, none) else (st, some .fuelOut)
  | fuel + 1, st =>
    match st.cola with
    | [] => (st, none)
    | x :: xs =>
      let m := menorEntrada x xs
      let resto := (x :: xs).erase m
      if m.2 ∈ st.visitados then
        buclePrincipal pesos destino fuel { st with cola := resto }
      else
        let st1 := { st with cola := resto, visitados := insert m.2 st.visitados }
        if m.2 = destino then (st1, none)
        else
          let pa := getDefault st1.gmapa m.2
          match relajarTodos pesos m.1 m.2 { st1 with gmapa := pa.2 } pa.1 with
          | (st2, none) => buclePrincipal pesos destino fuel st2
          | (st2, some e) => (st2, some e)

/-- The path-reconstruction loop: walk `padre` links from the target, collecting
nodes, until a node whose parent is `None`. -/
def reconstruir (padre : Node → Option (Option Node)) :
    ℕ → Node → List Node → List Node × Option Falla
  | 0, _, acc => (acc, some .fuelOut)
  | fuel + 1, actual, acc =>
    let acc' := acc ++ [actual]
    match padre actual with
    | none => (acc', some .keyErr)
    | some none => (acc', none)
    | some (some p) => reconstruir padre fuel p acc'

/-- Fuel sufficient for the main loop: one initial entry plus at most one push per
adjacency-list element of any node the search can settle. -/
def combustibleBucle (g : Grafo) (origen : Node) : ℕ :=
  (∑ x ∈ insert origen g.vertices, (adj g.grafo x).length) + 2

/-- Fuel sufficient for path reconstruction: the predecessor chain visits distinct
settled nodes. -/
def combustibleCamino (g : Grafo) : ℕ :=
  g.vertices.card + 2

/-- Outcome of a `dijkstra` call: the returned triple
`(costo_total, camino, longitud_ruta)` (with `none` as the Python `None` sentinel
cost), or an uncaught exception. -/
inductive Salida where
  | ok : Option ℕ → List Node → ℕ → Salida
  | err : Falla → Salida
deriving DecidableEq, Repr

/-- The initial working state of `dijkstra(origen, destino)`: distances `inf` on all
known vertices with the source seeded to `0` (a dict insert if absent), parents
`None` on all known vertices, empty settled set, the heap seeded with `(0, origen)`. -/
def estadoInicial (g : Grafo) (origen : Node) : Estado :=
  { distancias := upd (fun v => if v ∈ g.vertices then some .inf else none) origen (.val 0)
    padre := fun v => if v ∈ g.vertices then some none else none
    visitados := ∅
    cola := [(0, origen)]
    gmapa := g.grafo }

/-- `dijkstra(self, origen, destino)`.  Returns the outcome together with the graph
object as left after the call (the defaultdict may have gained empty entries). -/
def dijkstra (g : Grafo) (origen destino : Node) : Salida × Grafo :=
  let r := buclePrincipal g.pesos destino (combustibleBucle g origen) (estadoInicial g origen)
  let g' : Grafo := { g with grafo := r.1.gmapa }
  match r.2 with
  | some e => (.err e, g')
  | none =>
    match r.1.distancias destino with
    | none => (.err .keyErr, g')
    | some .inf => (.ok none [] 0, g')
    | some (.val n) =>
      match reconstruir r.1.padre (combustibleCamino g) destino [] with
      | (_, some e) => (.err e, g')
      | (acc, none) =>
        let camino := acc.reverse
        (.ok (some n) camino camino.length, g')

/-- Directed paths recorded in the graph, with their total weight: the neighbor
must be observable in the adjacency map and the weight is the recorded one. -/
inductive EsCamino (g : Grafo) : Node → Node → ℕ → Prop where
  | nil (v : Node) : EsCamino g v v 0
  | cons {u v t : Node} {w c : ℕ} (hv : v ∈ adj g.grafo u) (hw : g.pesos (u, v) = some w)
      (h : EsCamino g v t c) : EsCamino g u t (w + c)

/-- Every consecutive pair of the list is an edge observable in the adjacency map. -/
def esCadena (g : Grafo) : List Node → Bool
  | [] => true
  | [_] => true
  | u :: v :: rest => decide (v ∈ adj g.grafo u) && esCadena g (v :: rest)

/-- The sum of the recorded weights along consecutive pairs of the list
(`none` if some pair has no recorded weight). -/
def costoCamino (g : Grafo) : List Node → Option ℕ
  | [] => some 0
  | [_] => some 0
  | u :: v :: rest =>
    match g.pesos (u, v), costoCamino g (v :: rest) with
    | some w, some c => some (w + c)
    | _, _ => none

/-- The hardcoded 5×5 grid of the script (`aristas_red`). -/
def aristas_red : List (Node × Node × ℕ) :=
  [(0, 1, 15), (1, 2, 12), (2, 3, 18), (3, 4, 14),
   (5, 6, 16), (6, 7, 13), (7, 8, 17), (8, 9, 15),
   (10, 11, 14), (11, 12, 19), (12, 13, 13), (13, 14, 16),
   (15, 16, 17), (16, 17, 12), (17, 18, 15), (18, 19, 18),
   (20, 21, 13), (21, 22, 16), (22, 23, 14), (23, 24, 17),
   (0, 5, 20), (5, 10, 18), (10, 15, 22), (15, 20, 19),
   (1, 6, 18), (6, 11, 16), (11, 16, 20), (16, 21, 17),
   (2, 7, 19), (7, 12, 17), (12, 17, 18), (17, 22, 21),
   (3, 8, 16), (8, 13, 19), (13, 18, 17), (18, 23, 19),
   (4, 9, 17), (9, 14, 18), (14, 19, 20), (19, 24, 18),
   (1, 5, 22), (6, 2, 21), (7, 3, 20), (8, 4, 23),
   (11, 7, 19), (12, 8, 18), (13, 9, 21),
   (16, 12, 20), (17, 13, 19), (18, 14, 22)]

/-- The graph the script builds. -/
def grafoRed : Grafo := buildGrafo aristas_red

/-! ### Basic lemmas on the dict model and graph construction -/

theorem getDefault_fst (m : Node → Option (List Node)) (u : Node) :
    (getDefault m u).1 = adj m u := by
  unfold getDefault adj
  cases m u <;> simp

theorem adj_getDefault_snd (m : Node → Option (List Node)) (u x : Node) :
    adj (getDefault m u).2 x = adj m x := by
  unfold getDefault adj
  cases h : m u with
  | some l => simp
  | none =>
    by_cases hx : x = u
    · subst hx; simp [upd_self, h]
    · simp [upd_ne _ _ _ _ hx]

theorem adj_agregar (g : Grafo) (u v : Node) (peso : ℕ) (x : Node) :
    adj (agregar_arista g u v peso).grafo x =
      if x = u then adj g.grafo u ++ [v] else adj g.grafo x := by
  unfold agregar_arista
  by_cases hx : x = u
  · subst hx
    simp [adj, upd_self, getDefault_fst]
  · simp only [adj, upd_ne _ _ _ _ hx, if_neg hx]
    have := adj_getDefault_snd g.grafo u x
    simpa [adj] using this

theorem vertices_agregar (g : Grafo) (u v : Node) (peso : ℕ) :
    (agregar_arista g u v peso).vertices = insert v (insert u g.vertices) := rfl

theorem pesos_agregar (g : Grafo) (u v : Node) (peso : ℕ) :
    (agregar_arista g u v peso).pesos = upd g.pesos (u, v) peso := rfl

theorem wf_nuevo : Grafo.nuevo.WF := by
  intro u v hv
  simp [Grafo.nuevo, adj] at hv

theorem wf_agregar {g : Grafo} (hg : g.WF) (u v : Node) (peso : ℕ) :
    (agregar_arista g u v peso).WF := by
  intro x y hy
  rw [adj_agregar] at hy
  have mem : (x ∈ g.vertices ∧ y ∈ g.vertices ∧ (g.pesos (x, y)).isSome) ∨ (x = u ∧ y = v) := by
    by_cases hx : x = u
    · rw [if_pos hx, List.mem_append] at hy
      rcases hy with hy | hy
      · have h := hg u y hy
        exact Or.inl ⟨by rw [hx]; exact h.1, h.2.1, by rw [hx]; exact h.2.2⟩
      · exact Or.inr ⟨hx, by simpa using hy⟩
    · rw [if_neg hx] at hy
      exact Or.inl (hg x y hy)
  rw [Grafo.WF] at hg
  refine ?_
  show x ∈ (agregar_arista g u v peso).vertices ∧ y ∈ (agregar_arista g u v peso).vertices ∧
    ((agregar_arista g u v peso).pesos (x, y)).isSome
  rw [vertices_agregar, pesos_agregar]
  rcases mem with ⟨h1, h2, h3⟩ | ⟨h1, h2⟩
  · refine ⟨by simp [h1], by simp [h2], ?_⟩
    by_cases hk : ((x, y) : Node × Node) = (u, v)
    · rw [hk]; simp
    · rw [upd_ne _ _ _ _ hk]; exact h3
  · refine ⟨by simp [h1], by simp [h2], ?_⟩
    rw [h1, h2]; simp

theorem wf_foldl (l : List (Node × Node × ℕ)) :
    ∀ g : Grafo, g.WF → (l.foldl (fun g e => agregar_arista g e.1 e.2.1 e.2.2) g).WF := by
  induction l with
  | nil => intro g hg; exact hg
  | cons e rest ih =>
    intro g hg
    exact ih _ (wf_agregar hg e.1 e.2.1 e.2.2)

theorem buildGrafo_WF (l : List (Node × Node × ℕ)) : (buildGrafo l).WF :=
  wf_foldl l Grafo.nuevo wf_nuevo

theorem adj_eq_nil_of_not_mem {g : Grafo} (hg : g.WF) {u : Node} (hu : u ∉ g.vertices) :
    adj g.grafo u = [] := by
  cases h : adj g.grafo u with
  | nil => rfl
  | cons v vs =>
    exact absurd (hg u v (by rw [h]; exact List.mem_cons_self v vs)).1 hu

/-! ### Lemmas on recorded paths -/

theorem EsCamino.trans {g : Grafo} {a b t : Node} {c1 c2 : ℕ}
    (h1 : EsCamino g a b c1) (h2 : EsCamino g b t c2) : EsCamino g a t (c1 + c2) := by
  induction h1 with
  | nil x => simpa using h2
  | cons hv hw _ ih =>
    have := EsCamino.cons hv hw (ih h2)
    simpa [Nat.add_assoc] using this

theorem EsCamino.snoc {g : Grafo} {a b v : Node} {c w : ℕ}
    (h : EsCamino g a b c) (hv : v ∈ adj g.grafo b) (hw : g.pesos (b, v) = some w) :
    EsCamino g a v (c + w) := by
  have single : EsCamino g b v w := by
    simpa using EsCamino.cons hv hw (EsCamino.nil v)
  exact h.trans single

theorem no_camino_of_absent {g : Grafo} (hg : g.WF) {origen destino : Node}
    (ho : origen ∉ g.vertices) (hd : destino ∈ g.vertices) :
    ¬ ∃ c, EsCamino g origen destino c := by
  rintro ⟨c, hc⟩
  cases hc with
  | nil => exact ho hd
  | cons hv hw h => rw [adj_eq_nil_of_not_mem hg ho] at hv; exact absurd hv (List.not_mem_nil _)

/-! ### The frontier's minimum entry -/

/-- The non-strict counterpart of Python's tuple comparison. -/
def leLex (a b : ℕ × ℕ) : Prop :=
  a.1 < b.1 ∨ (a.1 = b.1 ∧ a.2 ≤ b.2)

theorem leLex_refl (a : ℕ × ℕ) : leLex a a := by
  simp [leLex]

theorem leLex_trans {a b c : ℕ × ℕ} (h1 : leLex a b) (h2 : leLex b c) : leLex a c := by
  unfold leLex at h1 h2 ⊢
  rcases h1 with h1 | ⟨h1, h1'⟩ <;> rcases h2 with h2 | ⟨h2, h2'⟩
  · exact Or.inl (by omega)
  · exact Or.inl (by omega)
  · exact Or.inl (by omega)
  · exact Or.inr ⟨by omega, by omega⟩

theorem leLex_fst {a b : ℕ × ℕ} (h : leLex a b) : a.1 ≤ b.1 := by
  rcases h with h | ⟨h, _⟩ <;> omega

theorem tupLt_true_iff (a b : ℕ × ℕ) :
    tupLt a b = true ↔ (a.1 < b.1 ∨ (a.1 = b.1 ∧ a.2 < b.2)) := by
  simp [tupLt]

theorem tupLt_false_iff (a b : ℕ × ℕ) : tupLt a b = false ↔ leLex b a := by
  rw [← Bool.not_eq_true, tupLt_true_iff]
  unfold leLex
  constructor
  · intro h
    push_neg at h
    rcases Nat.lt_or_ge b.1 a.1 with hlt | hge
    · exact Or.inl hlt
    · have heq : b.1 = a.1 := Nat.le_antisymm (by omega) hge
      exact Or.inr ⟨heq, h.2 heq.symm⟩
  · intro h
    push_neg
    rcases h with h | ⟨h, h'⟩
    · exact ⟨by omega, fun he => by omega⟩
    · exact ⟨by omega, fun _ => h'⟩

theorem leLex_if_left (x y : ℕ × ℕ) : leLex (if tupLt y x then y else x) x := by
  by_cases h : tupLt y x = true
  · rw [if_pos h]
    rw [tupLt_true_iff] at h
    unfold leLex
    rcases h with h | ⟨h, h'⟩
    · exact Or.inl h
    · exact Or.inr ⟨h, Nat.le_of_lt h'⟩
  · rw [if_neg h]
    exact leLex_refl x

theorem leLex_if_right (x y : ℕ × ℕ) : leLex (if tupLt y x then y else x) y := by
  by_cases h : tupLt y x = true
  · rw [if_pos h]
    exact leLex_refl y
  · rw [if_neg h]
    rw [Bool.not_eq_true, tupLt_false_iff] at h
    exact h

theorem menorEntrada_mem : ∀ (xs : List (ℕ × ℕ)) (x : ℕ × ℕ),
    menorEntrada x xs ∈ x :: xs := by
  intro xs
  induction xs with
  | nil => intro x; simp [menorEntrada]
  | cons y ys ih =>
    intro x
    have hunf : menorEntrada x (y :: ys) = menorEntrada (if tupLt y x then y else x) ys := rfl
    rw [hunf]
    have h := ih (if tupLt y x then y else x)
    rcases List.mem_cons.mp h with h | h
    · rw [h]
      by_cases hc : tupLt y x = true
      · rw [if_pos hc]; exact List.mem_cons_of_mem _ (List.mem_cons_self _ _)
      · rw [if_neg hc]; exact List.mem_cons_self _ _
    · exact List.mem_cons_of_mem _ (List.mem_cons_of_mem _ h)

theorem menorEntrada_min : ∀ (xs : List (ℕ × ℕ)) (x : ℕ × ℕ),
    ∀ e ∈ x :: xs, leLex (menorEntrada x xs) e := by
  intro xs
  induction xs with
  | nil =>
    intro x e he
    rcases List.mem_cons.mp he with rfl | he
    · exact leLex_refl _
    · exact absurd he (List.not_mem_nil _)
  | cons y ys ih =>
    intro x e he
    have hunf : menorEntrada x (y :: ys) = menorEntrada (if tupLt y x then y else x) ys := rfl
    rw [hunf]
    have hmin := ih (if tupLt y x then y else x)
    have hself := hmin _ (List.mem_cons_self _ _)
    rcases List.mem_cons.mp he with rfl | he2
    · exact leLex_trans hself (leLex_if_left _ _)
    · rcases List.mem_cons.mp he2 with rfl | he3
      · exact leLex_trans hself (leLex_if_right _ _)
      · exact hmin _ (List.mem_cons_of_mem _ he3)

theorem menorEntrada_fst_le (xs : List (ℕ × ℕ)) (x : ℕ × ℕ) :
    ∀ e ∈ x :: xs, (menorEntrada x xs).1 ≤ e.1 :=
  fun e he => leLex_fst (menorEntrada_min xs x e he)

/-! ### The search invariant -/

/-- Invariant parts that survive to the end of the search, independent of the
frontier: dict domains, the seeded source distance, attainability of every finite
label, the predecessor links, optimality of settled labels, and an ordering
of the settled set compatible with the predecessor links. -/
structure InvCore (g : Grafo) (origen : Node) (st : Estado) : Prop where
  dom_dist : ∀ v, (st.distancias v).isSome ↔ (v = origen ∨ v ∈ g.vertices)
  dom_padre : ∀ v, (st.padre v).isSome ↔ v ∈ g.vertices
  gmapa_adj : ∀ x, adj st.gmapa x = adj g.grafo x
  dist_origen : st.distancias origen = some (.val 0)
  dist_camino : ∀ v n, st.distancias v = some (.val n) → EsCamino g origen v n
  padre_de_fin : ∀ v, v ≠ origen → ∀ n, st.distancias v = some (.val n) →
    ∃ p, st.padre v = some (some p)
  enlace : ∀ v p, st.padre v = some (some p) →
    p ∈ st.visitados ∧ ∃ w dp, g.pesos (p, v) = some w ∧ v ∈ adj g.grafo p ∧
      st.distancias p = some (.val dp) ∧ st.distancias v = some (.val (dp + w))
  visit_sub : st.visitados ⊆ insert origen g.vertices
  optimo : ∀ u ∈ st.visitados, ∃ du, st.distancias u = some (.val du) ∧
    ∀ c, EsCamino g origen u c → du ≤ c
  orden : ∃ ord : List Node, ord.Nodup ∧ (∀ x, x ∈ ord ↔ x ∈ st.visitados) ∧
    ∀ v p, st.padre v = some (some p) → v ∈ ord → ord.indexOf p < ord.indexOf v

/-- Full loop-head invariant: `InvCore` plus the frontier bookkeeping. -/
structure InvBucle (g : Grafo) (origen : Node) (st : Estado)
    extends InvCore g origen st : Prop where
  cola_dist : ∀ e ∈ st.cola, ∃ dv, st.distancias e.2 = some (.val dv) ∧ dv ≤ e.1
  cola_sub : ∀ e ∈ st.cola, e.2 = origen ∨ e.2 ∈ g.vertices
  cola_camino : ∀ e ∈ st.cola, EsCamino g origen e.2 e.1
  pendiente : ∀ v, v ∉ st.visitados → ∀ n, st.distancias v = some (.val n) →
    ((n, v) : ℕ × ℕ) ∈ st.cola
  frontera : ∀ u ∈ st.visitados, ∀ v ∈ adj g.grafo u, ∀ w, g.pesos (u, v) = some w →
    ∃ du dv, st.distancias u = some (.val du) ∧ st.distancias v = some (.val dv) ∧
      dv ≤ du + w
  min_vis : ∀ u ∈ st.visitados, ∀ n, st.distancias u = some (.val n) →
    ∀ e ∈ st.cola, n ≤ e.1

theorem dist_inicial (g : Grafo) (origen v : Node) :
    (estadoInicial g origen).distancias v =
      if v = origen then some (.val 0) else (if v ∈ g.vertices then some .inf else none) := rfl

theorem inv_inicial (g : Grafo) (origen : Node) : InvBucle g origen (estadoInicial g origen) := by
  have hdist := dist_inicial g origen
  have hfin : ∀ v n, (estadoInicial g origen).distancias v = some (.val n) →
      v = origen ∧ n = 0 := by
    intro v n h
    rw [hdist] at h
    by_cases hv : v = origen
    · rw [if_pos hv] at h
      exact ⟨hv, by injection h with h'; injection h' with h''; omega⟩
    · rw [if_neg hv] at h
      by_cases hm : v ∈ g.vertices
      · rw [if_pos hm] at h
        exact absurd h (by simp)
      · rw [if_neg hm] at h
        exact absurd h (by simp)
  refine ⟨⟨?_, ?_, ?_, ?_, ?_, ?_, ?_, ?_, ?_, ?_⟩, ?_, ?_, ?_, ?_, ?_, ?_⟩
  · intro v
    rw [hdist]
    by_cases hv : v = origen
    · simp [hv]
    · rw [if_neg hv]
      by_cases hm : v ∈ g.vertices <;> simp [hm, hv]
  · intro v
    show (if v ∈ g.vertices then some (none : Option Node) else none).isSome ↔ v ∈ g.vertices
    by_cases hm : v ∈ g.vertices <;> simp [hm]
  · intro x; rfl
  · rw [hdist]; simp
  · intro v n h
    obtain ⟨hv, hn⟩ := hfin v n h
    rw [hv, hn]
    exact EsCamino.nil origen
  · intro v hv n h
    exact absurd (hfin v n h).1 hv
  · intro v p h
    have : (if v ∈ g.vertices then some (none : Option Node) else none) = some (some p) := h
    by_cases hm : v ∈ g.vertices
    · rw [if_pos hm] at this; simp at this
    · rw [if_neg hm] at this; simp at this
  · intro x hx
    exact absurd hx (Finset.not_mem_empty x)
  · intro u hu
    exact absurd hu (Finset.not_mem_empty u)
  · refine ⟨[], List.nodup_nil, ?_, ?_⟩
    · intro x
      simp [estadoInicial]
    · intro v p _ hv
      exact absurd hv (List.not_mem_nil v)
  · intro e he
    simp only [estadoInicial, List.mem_singleton] at he
    subst he
    refine ⟨0, ?_, le_refl 0⟩
    rw [hdist]
    simp
  · intro e he
    simp only [estadoInicial, List.mem_singleton] at he
    subst he
    exact Or.inl rfl
  · intro e he
    simp only [estadoInicial, List.mem_singleton] at he
    subst he
    exact EsCamino.nil origen
  · intro v _ n h
    obtain ⟨hv, hn⟩ := hfin v n h
    rw [hv, hn]
    exact List.mem_singleton.mpr rfl
  · intro u hu
    exact absurd hu (Finset.not_mem_empty u)
  · intro u hu
    exact absurd hu (Finset.not_mem_empty u)

/-- Facts holding throughout the relaxation of the neighbors of the just-settled
node `u`, popped at distance `d`: the full invariant except that the frontier
bound for `u` itself is still being (re)established, plus: `u` is settled at
label `d`, and `d` dominates every settled label. -/
structure InvRelax (g : Grafo) (origen : Node) (d : ℕ) (u : Node) (st : Estado)
    extends InvCore g origen st : Prop where
  cola_dist : ∀ e ∈ st.cola, ∃ dv, st.distancias e.2 = some (.val dv) ∧ dv ≤ e.1
  cola_sub : ∀ e ∈ st.cola, e.2 = origen ∨ e.2 ∈ g.vertices
  cola_camino : ∀ e ∈ st.cola, EsCamino g origen e.2 e.1
  pendiente : ∀ v, v ∉ st.visitados → ∀ n, st.distancias v = some (.val n) →
    ((n, v) : ℕ × ℕ) ∈ st.cola
  frontera' : ∀ x ∈ st.visitados, x ≠ u → ∀ v ∈ adj g.grafo x, ∀ w,
    g.pesos (x, v) = some w →
    ∃ dx dv, st.distancias x = some (.val dx) ∧ st.distancias v = some (.val dv) ∧
      dv ≤ dx + w
  min_vis : ∀ x ∈ st.visitados, ∀ n, st.distancias x = some (.val n) →
    ∀ e ∈ st.cola, n ≤ e.1
  u_vis : u ∈ st.visitados
  dist_u : st.distancias u = some (.val d)
  tope : ∀ x ∈ st.visitados, ∀ n, st.distancias x = some (.val n) → n ≤ d

theorem relajar_ok {g : Grafo} {origen : Node} {d : ℕ} {u : Node} {st : Estado}
    (hwf : g.WF) (hinv : InvRelax g origen d u st) {vecino : Node}
    (hvec : vecino ∈ adj g.grafo u) :
    ∃ st', relajar g.pesos d u st vecino = (st', none) ∧ InvRelax g origen d u st' ∧
      (∀ x m, st.distancias x = some (.val m) →
        ∃ m', st'.distancias x = some (.val m') ∧ m' ≤ m) ∧
      (∀ w, g.pesos (u, vecino) = some w →
        ∃ dv, st'.distancias vecino = some (.val dv) ∧ dv ≤ d + w) ∧
      st'.cola.length ≤ st.cola.length + 1 ∧
      st'.visitados = st.visitados ∧ st'.gmapa = st.gmapa := by
  obtain ⟨hu_mem, hv_mem, hw_some⟩ := hwf u vecino hvec
  obtain ⟨w, hw⟩ := Option.isSome_iff_exists.mp hw_some
  obtain ⟨dv, hdv⟩ := Option.isSome_iff_exists.mp
    ((hinv.dom_dist vecino).mpr (Or.inr hv_mem))
  unfold relajar
  rw [hw, hdv]
  dsimp only
  by_cases hlt : ltFloat (d + w) dv = true
  · rw [if_pos hlt]
    -- the updated neighbor cannot be settled: its label would exceed `d`
    have hvec_nvis : vecino ∉ st.visitados := by
      intro hmem
      obtain ⟨dvv, hdvv, _⟩ := hinv.optimo vecino hmem
      have : dv = .val dvv := by rw [hdv] at hdvv; injection hdvv
      subst this
      have h1 : d + w < dvv := by simpa [ltFloat] using hlt
      have h2 : dvv ≤ d := hinv.tope vecino hmem dvv hdvv
      omega
    have hune : u ≠ vecino := fun h => hvec_nvis (h ▸ hinv.u_vis)
    have hone : origen ≠ vecino := by
      intro h
      rw [← h, hinv.dist_origen] at hdv
      injection hdv with h'
      rw [← h'] at hlt
      simp [ltFloat] at hlt
    have hcam_u : EsCamino g origen u d := hinv.dist_camino u d hinv.dist_u
    have hcam_vec : EsCamino g origen vecino (d + w) := hcam_u.snoc hvec hw
    refine ⟨_, rfl, ⟨⟨?_, ?_, ?_, ?_, ?_, ?_, ?_, ?_, ?_, ?_⟩,
      ?_, ?_, ?_, ?_, ?_, ?_, ?_, ?_, ?_⟩, ?_, ?_, ?_, rfl, rfl⟩
    all_goals dsimp only
    · intro v
      by_cases hv : v = vecino
      · subst hv
        simp [hv_mem]
      · rw [upd_ne _ _ _ _ hv]
        exact hinv.dom_dist v
    · intro v
      by_cases hv : v = vecino
      · subst hv
        simp [hv_mem]
      · rw [upd_ne _ _ _ _ hv]
        exact hinv.dom_padre v
    · exact hinv.gmapa_adj
    · rw [upd_ne _ _ _ _ hone]
      exact hinv.dist_origen
    · intro v n h
      by_cases hv : v = vecino
      · subst hv
        rw [upd_self] at h
        injection h with h'
        injection h' with h''
        rw [← h'']
        exact hcam_vec
      · rw [upd_ne _ _ _ _ hv] at h
        exact hinv.dist_camino v n h
    · intro v hvo n h
      by_cases hv : v = vecino
      · subst hv
        exact ⟨u, by rw [upd_self]⟩
      · rw [upd_ne _ _ _ _ hv] at h
        obtain ⟨p, hp⟩ := hinv.padre_de_fin v hvo n h
        exact ⟨p, by rw [upd_ne _ _ _ _ hv]; exact hp⟩
    · intro v p h
      by_cases hv : v = vecino
      · subst hv
        rw [upd_self] at h
        injection h with h'
        injection h' with h''
        subst h''
        refine ⟨hinv.u_vis, w, d, hw, hvec, ?_, ?_⟩
        · rw [upd_ne _ _ _ _ hune]
          exact hinv.dist_u
        · rw [upd_self]
      · rw [upd_ne _ _ _ _ hv] at h
        obtain ⟨hpv, w', dp, hw', hadj', hdp, hdv'⟩ := hinv.enlace v p h
        have hpne : p ≠ vecino := fun hp => hvec_nvis (hp ▸ hpv)
        exact ⟨hpv, w', dp, hw', hadj',
          by rw [upd_ne _ _ _ _ hpne]; exact hdp,
          by rw [upd_ne _ _ _ _ hv]; exact hdv'⟩
    · exact hinv.visit_sub
    · intro x hx
      obtain ⟨dx, hdx, hopt⟩ := hinv.optimo x hx
      have hxne : x ≠ vecino := fun h => hvec_nvis (h ▸ hx)
      exact ⟨dx, by rw [upd_ne _ _ _ _ hxne]; exact hdx, hopt⟩
    · obtain ⟨ord, hnd, hmem, hidx⟩ := hinv.orden
      refine ⟨ord, hnd, hmem, ?_⟩
      intro v p h hv
      by_cases hveq : v = vecino
      · subst hveq
        exact absurd ((hmem v).mp hv) hvec_nvis
      · rw [upd_ne _ _ _ _ hveq] at h
        exact hidx v p h hv
    · intro e he
      rw [List.mem_append] at he
      rcases he with he | he
      · obtain ⟨dv', hdv', hle⟩ := hinv.cola_dist e he
        by_cases hv : e.2 = vecino
        · rw [hv] at hdv'
          rw [hdv] at hdv'
          injection hdv' with h'
          subst h'
          have h1 : d + w < dv' := by simpa [ltFloat] using hlt
          exact ⟨d + w, by rw [hv, upd_self], by omega⟩
        · exact ⟨dv', by rw [upd_ne _ _ _ _ hv]; exact hdv', hle⟩
      · rw [List.mem_singleton] at he
        subst he
        exact ⟨d + w, by rw [upd_self], le_refl _⟩
    · intro e he
      rw [List.mem_append] at he
      rcases he with he | he
      · exact hinv.cola_sub e he
      · rw [List.mem_singleton] at he
        subst he
        exact Or.inr hv_mem
    · intro e he
      rw [List.mem_append] at he
      rcases he with he | he
      · exact hinv.cola_camino e he
      · rw [List.mem_singleton] at he
        subst he
        exact hcam_vec
    · intro v hnv n h
      by_cases hv : v = vecino
      · subst hv
        rw [upd_self] at h
        injection h with h'
        injection h' with h''
        rw [← h'']
        exact List.mem_append_right _ (List.mem_singleton.mpr rfl)
      · rw [upd_ne _ _ _ _ hv] at h
        exact List.mem_append_left _ (hinv.pendiente v hnv n h)
    · intro x hx hxu v hv w' hw'
      obtain ⟨dx, dv', hdx, hdv', hle⟩ := hinv.frontera' x hx hxu v hv w' hw'
      have hxne : x ≠ vecino := fun h => hvec_nvis (h ▸ hx)
      refine ⟨dx, ?_⟩
      by_cases hveq : v = vecino
      · subst hveq
        rw [hdv] at hdv'
        injection hdv' with h'
        subst h'
        have h1 : d + w < dv' := by simpa [ltFloat] using hlt
        exact ⟨d + w, by rw [upd_ne _ _ _ _ hxne]; exact hdx,
          by rw [upd_self], by omega⟩
      · exact ⟨dv', by rw [upd_ne _ _ _ _ hxne]; exact hdx,
          by rw [upd_ne _ _ _ _ hveq]; exact hdv', hle⟩
    · intro x hx n h e he
      have hxne : x ≠ vecino := fun hq => hvec_nvis (hq ▸ hx)
      rw [upd_ne _ _ _ _ hxne] at h
      rw [List.mem_append] at he
      rcases he with he | he
      · exact hinv.min_vis x hx n h e he
      · rw [List.mem_singleton] at he
        subst he
        have := hinv.tope x hx n h
        simp only []
        omega
    · exact hinv.u_vis
    · rw [upd_ne _ _ _ _ hune]
      exact hinv.dist_u
    · intro x hx n h
      have hxne : x ≠ vecino := fun hq => hvec_nvis (hq ▸ hx)
      rw [upd_ne _ _ _ _ hxne] at h
      exact hinv.tope x hx n h
    · intro x m h
      by_cases hv : x = vecino
      · subst hv
        rw [hdv] at h
        injection h with h'
        subst h'
        have h1 : d + w < m := by simpa [ltFloat] using hlt
        exact ⟨d + w, by rw [upd_self], by omega⟩
      · exact ⟨m, by rw [upd_ne _ _ _ _ hv]; exact h, le_refl m⟩
    · intro w' hw'
      injection hw' with h'
      subst h'
      exact ⟨d + w, by rw [upd_self], le_refl _⟩
    · simp
  · rw [if_neg hlt]
    refine ⟨st, rfl, hinv, ?_, ?_, by omega, rfl, rfl⟩
    · intro x m h
      exact ⟨m, h, le_refl m⟩
    · intro w' hw'
      injection hw' with h'
      subst h'
      cases dv with
      | inf => simp [ltFloat] at hlt
      | val m =>
        have : ¬ (d + w < m) := by simpa [ltFloat] using hlt
        exact ⟨m, hdv, by omega⟩

theorem relajarTodos_ok {g : Grafo} {origen : Node} {d : ℕ} {u : Node}
    (hwf : g.WF) :
    ∀ (vs : List Node) (st : Estado), (∀ v ∈ vs, v ∈ adj g.grafo u) →
    InvRelax g origen d u st →
    ∃ st', relajarTodos g.pesos d u st vs = (st', none) ∧ InvRelax g origen d u st' ∧
      (∀ x m, st.distancias x = some (.val m) →
        ∃ m', st'.distancias x = some (.val m') ∧ m' ≤ m) ∧
      (∀ v ∈ vs, ∀ w, g.pesos (u, v) = some w →
        ∃ dv, st'.distancias v = some (.val dv) ∧ dv ≤ d + w) ∧
      st'.cola.length ≤ st.cola.length + vs.length ∧
      st'.visitados = st.visitados ∧ st'.gmapa = st.gmapa := by
  intro vs
  induction vs with
  | nil =>
    intro st _ hinv
    exact ⟨st, rfl, hinv, fun x m h => ⟨m, h, le_refl m⟩, by simp, by omega, rfl, rfl⟩
  | cons v vs ih =>
    intro st hsub hinv
    obtain ⟨st1, heq1, hinv1, hdec1, hbound1, hlen1, hvis1, hg1⟩ :=
      relajar_ok hwf hinv (hsub v (List.mem_cons_self v vs))
    obtain ⟨st2, heq2, hinv2, hdec2, hbound2, hlen2, hvis2, hg2⟩ :=
      ih st1 (fun x hx => hsub x (List.mem_cons_of_mem v hx)) hinv1
    refine ⟨st2, ?_, hinv2, ?_, ?_, ?_, ?_, ?_⟩
    · show relajarTodos g.pesos d u st (v :: vs) = (st2, none)
      unfold relajarTodos
      rw [heq1]
      exact heq2
    · intro x m h
      obtain ⟨m1, h1, hle1⟩ := hdec1 x m h
      obtain ⟨m2, h2, hle2⟩ := hdec2 x m1 h1
      exact ⟨m2, h2, le_trans hle2 hle1⟩
    · intro x hx w hw
      rcases List.mem_cons.mp hx with rfl | hx2
      · obtain ⟨dv, hdv, hle⟩ := hbound1 w hw
        obtain ⟨dv2, hdv2, hle2⟩ := hdec2 x dv hdv
        exact ⟨dv2, hdv2, le_trans hle2 hle⟩
      · exact hbound2 x hx2 w hw
    · simp only [List.length_cons]
      omega
    · rw [hvis2, hvis1]
    · rw [hg2, hg1]

/-! ### The frontier covers every path to an unsettled node -/

theorem cubre_aux {g : Grafo} {origen : Node} {st : Estado} (hinv : InvBucle g origen st)
    {v t : Node} {c : ℕ} (hc : EsCamino g v t c) :
    t ∉ st.visitados → v ∈ st.visitados → ∀ dv, st.distancias v = some (.val dv) →
    ∃ e ∈ st.cola, e.1 ≤ dv + c := by
  induction hc with
  | nil x =>
    intro hnt hv _ _
    exact absurd hv hnt
  | @cons a b tt w cc hv hw hrest ih =>
    intro hnt hu du hdu
    obtain ⟨du', dv', hdu', hdv', hle⟩ := hinv.frontera _ hu _ hv _ hw
    have hdu_eq : du' = du := by
      rw [hdu] at hdu'
      injection hdu' with h'
      injection h' with h''
      exact h''.symm
    rw [hdu_eq] at hle
    by_cases hvv : b ∈ st.visitados
    · obtain ⟨e, he, hle2⟩ := ih hnt hvv dv' hdv'
      exact ⟨e, he, by omega⟩
    · refine ⟨(dv', b), hinv.pendiente b hvv dv' hdv', ?_⟩
      show dv' ≤ du + (w + cc)
      omega

theorem cubre {g : Grafo} {origen : Node} {st : Estado} (hinv : InvBucle g origen st)
    {t : Node} {c : ℕ} (hc : EsCamino g origen t c) (hnt : t ∉ st.visitados) :
    ∃ e ∈ st.cola, e.1 ≤ c := by
  by_cases ho : origen ∈ st.visitados
  · obtain ⟨e, he, hle⟩ := cubre_aux hinv hc hnt ho 0 hinv.dist_origen
    exact ⟨e, he, by omega⟩
  · exact ⟨(0, origen), hinv.pendiente origen ho 0 hinv.dist_origen, Nat.zero_le c⟩

/-! ### Invariant preservation by the loop body -/

theorem inv_quita {g : Grafo} {origen : Node} {st : Estado} (hinv : InvBucle g origen st)
    {x : ℕ × ℕ} {xs : List (ℕ × ℕ)} (hcola : st.cola = x :: xs)
    (hvis : (menorEntrada x xs).2 ∈ st.visitados) :
    InvBucle g origen { st with cola := (x :: xs).erase (menorEntrada x xs) } := by
  have hsub : ∀ e, e ∈ (x :: xs).erase (menorEntrada x xs) → e ∈ st.cola := by
    intro e he
    rw [hcola]
    exact List.erase_subset _ _ he
  obtain ⟨core, cd, cs, cc, pend, front, minv⟩ := hinv
  refine ⟨⟨core.dom_dist, core.dom_padre, core.gmapa_adj, core.dist_origen,
    core.dist_camino, core.padre_de_fin, core.enlace, core.visit_sub, core.optimo,
    core.orden⟩, ?_, ?_, ?_, ?_, front, ?_⟩
  · intro e he; exact cd e (hsub e he)
  · intro e he; exact cs e (hsub e he)
  · intro e he; exact cc e (hsub e he)
  · intro v hv n h
    have hne : ((n, v) : ℕ × ℕ) ≠ menorEntrada x xs := by
      intro heq
      apply hv
      rw [show v = (menorEntrada x xs).2 from by rw [← heq]]
      exact hvis
    have := pend v hv n h
    rw [hcola] at this
    exact (List.mem_erase_of_ne hne).mpr this
  · intro u hu n h e he; exact minv u hu n h e (hsub e he)

theorem inv_asienta {g : Grafo} {origen : Node} {st : Estado} (hinv : InvBucle g origen st)
    {x : ℕ × ℕ} {xs : List (ℕ × ℕ)} (hcola : st.cola = x :: xs)
    (hnv : (menorEntrada x xs).2 ∉ st.visitados) :
    InvRelax g origen (menorEntrada x xs).1 (menorEntrada x xs).2
      { st with cola := (x :: xs).erase (menorEntrada x xs),
                visitados := insert (menorEntrada x xs).2 st.visitados } := by
  set m := menorEntrada x xs with hm
  have hmem : m ∈ st.cola := by rw [hcola]; exact menorEntrada_mem xs x
  have hminled : ∀ e ∈ st.cola, m.1 ≤ e.1 := by
    intro e he
    rw [hcola] at he
    exact menorEntrada_fst_le xs x e he
  have hdist_m : st.distancias m.2 = some (.val m.1) := by
    obtain ⟨dmv, hdm, hle⟩ := hinv.cola_dist m hmem
    have hpend := hinv.pendiente m.2 hnv dmv hdm
    have hge : m.1 ≤ dmv := hminled (dmv, m.2) hpend
    have heq : dmv = m.1 := by omega
    rw [hdm, heq]
  have hopt_m : ∀ c, EsCamino g origen m.2 c → m.1 ≤ c := by
    intro c hc
    obtain ⟨e, he, hle⟩ := cubre hinv hc hnv
    exact le_trans (hminled e he) hle
  have hm2S : m.2 ∈ insert origen g.vertices := by
    rcases hinv.cola_sub m hmem with h | h
    · rw [h]; exact Finset.mem_insert_self _ _
    · exact Finset.mem_insert_of_mem h
  have hsub : ∀ e, e ∈ (x :: xs).erase m → e ∈ st.cola := by
    intro e he
    rw [hcola]
    exact List.erase_subset _ _ he
  refine ⟨⟨hinv.dom_dist, hinv.dom_padre, hinv.gmapa_adj, hinv.dist_origen,
    hinv.dist_camino, hinv.padre_de_fin, ?_, ?_, ?_, ?_⟩,
    ?_, ?_, ?_, ?_, ?_, ?_, ?_, ?_, ?_⟩
  · intro v p h
    obtain ⟨hpv, w, dp, hw, hadj, hdp, hdv⟩ := hinv.enlace v p h
    exact ⟨Finset.mem_insert_of_mem hpv, w, dp, hw, hadj, hdp, hdv⟩
  · exact Finset.insert_subset_iff.mpr ⟨hm2S, hinv.visit_sub⟩
  · intro u hu
    rcases Finset.mem_insert.mp hu with hu | hu
    · exact ⟨m.1, by rw [hu]; exact hdist_m, by rw [hu]; exact hopt_m⟩
    · exact hinv.optimo u hu
  · obtain ⟨ord, hnd, hmemiff, hidx⟩ := hinv.orden
    have hm2nord : m.2 ∉ ord := fun h => hnv ((hmemiff m.2).mp h)
    refine ⟨ord ++ [m.2], ?_, ?_, ?_⟩
    · rw [List.nodup_append]
      refine ⟨hnd, List.nodup_singleton _, ?_⟩
      intro a ha hb
      rw [List.mem_singleton] at hb
      rw [hb] at ha
      exact hm2nord ha
    · intro y
      rw [List.mem_append, List.mem_singleton, hmemiff y]
      show y ∈ st.visitados ∨ y = m.2 ↔ y ∈ insert m.2 st.visitados
      rw [Finset.mem_insert]
      tauto
    · intro v p hpd hv
      rw [List.mem_append] at hv
      have hp_vis : p ∈ st.visitados := (hinv.enlace v p hpd).1
      have hp_ord : p ∈ ord := (hmemiff p).mpr hp_vis
      have hidxp : (ord ++ [m.2]).indexOf p = ord.indexOf p :=
        List.indexOf_append_of_mem hp_ord
      rcases hv with hv | hv
      · rw [hidxp, List.indexOf_append_of_mem hv]
        exact hidx v p hpd hv
      · rw [List.mem_singleton] at hv
        rw [hidxp, hv, List.indexOf_append_of_not_mem hm2nord]
        have h1 : List.indexOf m.2 [m.2] = 0 := by simp
        rw [h1]
        have h2 : ord.indexOf p < ord.length := List.indexOf_lt_length.mpr hp_ord
        omega
  · intro e he; exact hinv.cola_dist e (hsub e he)
  · intro e he; exact hinv.cola_sub e (hsub e he)
  · intro e he; exact hinv.cola_camino e (hsub e he)
  · intro v hv n h
    rw [Finset.mem_insert] at hv
    push_neg at hv
    have hmemb := hinv.pendiente v hv.2 n h
    have hne : ((n, v) : ℕ × ℕ) ≠ m := by
      intro heq
      apply hv.1
      rw [← heq]
    rw [hcola] at hmemb
    exact (List.mem_erase_of_ne hne).mpr hmemb
  · intro x' hx' hxne v hv w hw
    have hx'v : x' ∈ st.visitados := by
      rcases Finset.mem_insert.mp hx' with h | h
      · exact absurd h hxne
      · exact h
    exact hinv.frontera x' hx'v v hv w hw
  · intro x' hx' n h e he
    rcases Finset.mem_insert.mp hx' with hx'' | hx''
    · have : st.distancias m.2 = some (.val n) := by rw [← hx'']; exact h
      rw [hdist_m] at this
      injection this with h'
      injection h' with h''
      rw [← h'']
      exact hminled e (hsub e he)
    · exact hinv.min_vis x' hx'' n h e (hsub e he)
  · exact Finset.mem_insert_self _ _
  · exact hdist_m
  · intro x' hx' n h
    rcases Finset.mem_insert.mp hx' with hx'' | hx''
    · have : st.distancias m.2 = some (.val n) := by rw [← hx'']; exact h
      rw [hdist_m] at this
      injection this with h'
      injection h' with h''
      omega
    · exact hinv.min_vis x' hx'' n h m hmem

theorem invRelax_gmapa {g : Grafo} {origen : Node} {d : ℕ} {u : Node} {st : Estado}
    (hinv : InvRelax g origen d u st) {gm : Node → Option (List Node)}
    (hgm : ∀ y, adj gm y = adj st.gmapa y) :
    InvRelax g origen d u { st with gmapa := gm } := by
  refine ⟨⟨hinv.dom_dist, hinv.dom_padre, ?_, hinv.dist_origen, hinv.dist_camino,
    hinv.padre_de_fin, hinv.enlace, hinv.visit_sub, hinv.optimo, hinv.orden⟩,
    hinv.cola_dist, hinv.cola_sub, hinv.cola_camino, hinv.pendiente, hinv.frontera',
    hinv.min_vis, hinv.u_vis, hinv.dist_u, hinv.tope⟩
  intro y
  exact (hgm y).trans (hinv.gmapa_adj y)

theorem invBucle_after {g : Grafo} {origen : Node} {d : ℕ} {u : Node} {st : Estado}
    (hR : InvRelax g origen d u st)
    (hbound : ∀ v ∈ adj g.grafo u, ∀ w, g.pesos (u, v) = some w →
      ∃ dv, st.distancias v = some (.val dv) ∧ dv ≤ d + w) :
    InvBucle g origen st := by
  refine ⟨hR.toInvCore, hR.cola_dist, hR.cola_sub, hR.cola_camino, hR.pendiente, ?_,
    hR.min_vis⟩
  intro y hy v hv w hw
  by_cases hyu : y = u
  · obtain ⟨dv, hdv, hle⟩ := hbound v (by rw [← hyu]; exact hv) w (by rw [← hyu]; exact hw)
    exact ⟨d, dv, by rw [hyu]; exact hR.dist_u, hdv, hle⟩
  · exact hR.frontera' y hy hyu v hv w hw

theorem bucle_nil {pesos : Node × Node → Option ℕ} {destino : Node} {fuel : ℕ}
    {st : Estado} (h : st.cola = []) :
    buclePrincipal pesos destino fuel st = (st, none) := by
  cases fuel with
  | zero => simp [buclePrincipal, h]
  | succ n =>
    simp only [buclePrincipal]
    rw [h]

theorem bucle_cons (pesos : Node × Node → Option ℕ) (destino : Node) (fuel : ℕ)
    (st : Estado) (x : ℕ × ℕ) (xs : List (ℕ × ℕ)) (h : st.cola = x :: xs) :
    buclePrincipal pesos destino (fuel + 1) st =
      (if (menorEntrada x xs).2 ∈ st.visitados then
        buclePrincipal pesos destino fuel
          { st with cola := (x :: xs).erase (menorEntrada x xs) }
      else if (menorEntrada x xs).2 = destino then
        ({ st with cola := (x :: xs).erase (menorEntrada x xs),
                   visitados := insert (menorEntrada x xs).2 st.visitados }, none)
      else
        match relajarTodos pesos (menorEntrada x xs).1 (menorEntrada x xs).2
            { st with cola := (x :: xs).erase (menorEntrada x xs),
                      visitados := insert (menorEntrada x xs).2 st.visitados,
                      gmapa := (getDefault st.gmapa (menorEntrada x xs).2).2 }
            (getDefault st.gmapa (menorEntrada x xs).2).1 with
        | (st2, none) => buclePrincipal pesos destino fuel st2
        | (st2, some e) => (st2, some e)) := by
  simp only [buclePrincipal]
  rw [h]

theorem suma_divide {g : Grafo} {origen u : Node} {vis : Finset Node}
    (hu_mem : u ∈ insert origen g.vertices) (hu_nvis : u ∉ vis) :
    (∑ y ∈ (insert origen g.vertices) \ vis, (adj g.grafo y).length) =
      (adj g.grafo u).length +
        ∑ y ∈ (insert origen g.vertices) \ (insert u vis), (adj g.grafo y).length := by
  have hu' := Finset.mem_insert.mp hu_mem
  have hsplit : (insert origen g.vertices) \ vis =
      insert u ((insert origen g.vertices) \ (insert u vis)) := by
    ext y
    simp only [Finset.mem_sdiff, Finset.mem_insert]
    by_cases hyu : y = u
    · subst hyu
      tauto
    · tauto
  rw [hsplit, Finset.sum_insert (by simp)]

theorem bucle_correcto {g : Grafo} {origen destino : Node} (hwf : g.WF) :
    ∀ fuel (st : Estado), InvBucle g origen st → destino ∉ st.visitados →
    st.cola.length +
      (∑ y ∈ (insert origen g.vertices) \ st.visitados, (adj g.grafo y).length) < fuel →
    ∃ st', buclePrincipal g.pesos destino fuel st = (st', none) ∧
      InvCore g origen st' ∧
      ((st'.cola = [] ∧ destino ∉ st'.visitados ∧ InvBucle g origen st') ∨
        destino ∈ st'.visitados) := by
  intro fuel
  induction fuel with
  | zero => intro st _ _ hf; omega
  | succ fuel ih =>
    intro st hinv hnd hf
    cases hcola : st.cola with
    | nil =>
      exact ⟨st, bucle_nil hcola, hinv.toInvCore, Or.inl ⟨hcola, hnd, hinv⟩⟩
    | cons x xs =>
      rw [bucle_cons g.pesos destino fuel st x xs hcola]
      set m := menorEntrada x xs with hm
      have hmem_m : m ∈ st.cola := by rw [hcola]; exact menorEntrada_mem xs x
      have hlen_cola : st.cola.length = xs.length + 1 := by rw [hcola]; simp
      have hlen_resto : ((x :: xs).erase m).length = xs.length := by
        have h := List.length_erase_of_mem (show m ∈ x :: xs by rw [← hcola]; exact hmem_m)
        rw [h]
        simp
      by_cases hvis : m.2 ∈ st.visitados
      · rw [if_pos hvis]
        apply ih
        · exact inv_quita hinv hcola hvis
        · exact hnd
        · show ((x :: xs).erase m).length +
            (∑ y ∈ (insert origen g.vertices) \ st.visitados, (adj g.grafo y).length) < fuel
          rw [hlen_resto]
          omega
      · rw [if_neg hvis]
        have hR := inv_asienta hinv hcola hvis
        by_cases hdest : m.2 = destino
        · rw [if_pos hdest]
          refine ⟨_, rfl, hR.toInvCore, Or.inr ?_⟩
          show destino ∈ insert m.2 st.visitados
          rw [hdest]
          exact Finset.mem_insert_self _ _
        · rw [if_neg hdest]
          have hR2 := invRelax_gmapa hR (fun y => adj_getDefault_snd st.gmapa m.2 y)
          have hvs : (getDefault st.gmapa m.2).1 = adj g.grafo m.2 :=
            (getDefault_fst _ _).trans (hinv.gmapa_adj m.2)
          obtain ⟨st2, heq2, hinv2, hdec2, hbound2, hlen2, hvis2, hg2⟩ :=
            relajarTodos_ok hwf (getDefault st.gmapa m.2).1 _
              (fun v hv => by rw [hvs] at hv; exact hv) hR2
          rw [heq2]
          apply ih st2
          · exact invBucle_after hinv2
              (fun v hv w hw => hbound2 v (by rw [hvs]; exact hv) w hw)
          · rw [hvis2]
            show destino ∉ insert m.2 st.visitados
            rw [Finset.mem_insert]
            push_neg
            exact ⟨fun h => hdest h.symm, hnd⟩
          · have hm2S : m.2 ∈ insert origen g.vertices := by
              rcases hinv.cola_sub m hmem_m with h | h
              · rw [h]; exact Finset.mem_insert_self _ _
              · exact Finset.mem_insert_of_mem h
            have hsum := suma_divide hm2S hvis
            rw [hvis2]
            show st2.cola.length +
              (∑ y ∈ (insert origen g.vertices) \ (insert m.2 st.visitados),
                (adj g.grafo y).length) < fuel
            have hlen2' : st2.cola.length ≤ xs.length + (adj g.grafo m.2).length := by
              dsimp only at hlen2
              rw [hlen_resto, hvs] at hlen2
              exact hlen2
            omega

/-! ### Path reconstruction -/

theorem getLast?_cons_ne {α : Type} (a : α) (l : List α) (h : l ≠ []) :
    (a :: l).getLast? = l.getLast? := by
  cases l with
  | nil => exact absurd rfl h
  | cons b bs => exact List.getLast?_cons_cons

theorem esCadena_snoc {g : Grafo} : ∀ (l : List Node) {p v : Node},
    l.getLast? = some p → esCadena g l = true → v ∈ adj g.grafo p →
    esCadena g (l ++ [v]) = true := by
  intro l
  induction l with
  | nil => intro p v h _ _; simp at h
  | cons a rest ih =>
    intro p v hlast hcad hv
    cases rest with
    | nil =>
      simp at hlast
      subst hlast
      show (decide (v ∈ adj g.grafo a) && esCadena g [v]) = true
      simp [esCadena, hv]
    | cons b bs =>
      have hlast' : (b :: bs).getLast? = some p := by
        rw [← List.getLast?_cons_cons (a := a)]
        exact hlast
      have hcad' : esCadena g (b :: bs) = true := by
        have : (decide (b ∈ adj g.grafo a) && esCadena g (b :: bs)) = true := hcad
        exact (Bool.and_eq_true _ _).mp this |>.2
      have hadj : b ∈ adj g.grafo a := by
        have : (decide (b ∈ adj g.grafo a) && esCadena g (b :: bs)) = true := hcad
        exact of_decide_eq_true ((Bool.and_eq_true _ _).mp this).1
      have := ih hlast' hcad' hv
      show (decide (b ∈ adj g.grafo a) && esCadena g (b :: bs ++ [v])) = true
      rw [Bool.and_eq_true]
      exact ⟨decide_eq_true hadj, this⟩

theorem costoCamino_snoc {g : Grafo} : ∀ (l : List Node) {p v : Node} {c w : ℕ},
    costoCamino g l = some c → l.getLast? = some p → g.pesos (p, v) = some w →
    costoCamino g (l ++ [v]) = some (c + w) := by
  intro l
  induction l with
  | nil => intro p v c w _ h _; simp at h
  | cons a rest ih =>
    intro p v c w hcost hlast hw
    cases rest with
    | nil =>
      simp at hlast
      subst hlast
      have hc0 : c = 0 := by
        have h : (some 0 : Option ℕ) = some c := hcost
        injection h with h'
        omega
      show costoCamino g (a :: [v]) = some (c + w)
      show (match g.pesos (a, v), costoCamino g [v] with
        | some w, some c => some (w + c)
        | _, _ => none) = some (c + w)
      rw [hw]
      show some (w + 0) = some (c + w)
      rw [hc0]
      congr 1
      omega
    | cons b bs =>
      have hlast' : (b :: bs).getLast? = some p := by
        rw [← List.getLast?_cons_cons (a := a)]
        exact hlast
      have hcost' : ∃ w1 c1, g.pesos (a, b) = some w1 ∧ costoCamino g (b :: bs) = some c1 ∧
          c = w1 + c1 := by
        have h : (match g.pesos (a, b), costoCamino g (b :: bs) with
          | some w, some c => some (w + c)
          | _, _ => none) = some c := hcost
        cases hab : g.pesos (a, b) with
        | none => rw [hab] at h; simp at h
        | some w1 =>
          cases hbc : costoCamino g (b :: bs) with
          | none => rw [hab, hbc] at h; simp at h
          | some c1 =>
            rw [hab, hbc] at h
            injection h with h'
            exact ⟨w1, c1, rfl, rfl, h'.symm⟩
      obtain ⟨w1, c1, hab, hbc, hceq⟩ := hcost'
      have := ih hbc hlast' hw
      show (match g.pesos (a, b), costoCamino g (b :: bs ++ [v]) with
        | some w, some c => some (w + c)
        | _, _ => none) = some (c + w)
      rw [hab, this]
      show some (w1 + (c1 + w)) = some (c + w)
      rw [hceq]
      congr 1
      omega

theorem reconstruir_aux {g : Grafo} {origen : Node} {st : Estado}
    (hc : InvCore g origen st) (ho : origen ∈ g.vertices)
    {ord : List Node} (hmemiff : ∀ y, y ∈ ord ↔ y ∈ st.visitados)
    (hidx : ∀ v p, st.padre v = some (some p) → v ∈ ord →
      List.indexOf p ord < List.indexOf v ord) :
    ∀ fuel v acc n, v ∈ ord → st.distancias v = some (.val n) →
      List.indexOf v ord < fuel →
      ∃ l, reconstruir st.padre fuel v acc = (acc ++ l, none) ∧ l ≠ [] ∧
        l.head? = some v ∧ l.getLast? = some origen ∧
        esCadena g l.reverse = true ∧ costoCamino g l.reverse = some n := by
  intro fuel
  induction fuel with
  | zero => intro v acc n _ _ hidxv; omega
  | succ fuel ih =>
    intro v acc n hv hd hidxv
    have hv_vis : v ∈ st.visitados := (hmemiff v).mp hv
    have hv_mem : v ∈ g.vertices := by
      rcases Finset.mem_insert.mp (hc.visit_sub hv_vis) with h | h
      · rw [h]; exact ho
      · exact h
    have hps : (st.padre v).isSome := (hc.dom_padre v).mpr hv_mem
    cases hpv : st.padre v with
    | none => rw [hpv] at hps; simp at hps
    | some o =>
      cases o with
      | none =>
        have hvo : v = origen := by
          by_contra hne
          obtain ⟨p, hp⟩ := hc.padre_de_fin v hne n hd
          rw [hpv] at hp
          injection hp with h'
          simp at h'
        have hn0 : n = 0 := by
          rw [hvo, hc.dist_origen] at hd
          injection hd with h'
          injection h' with h''
          omega
        refine ⟨[v], ?_, by simp, by simp, by simp [hvo], ?_, ?_⟩
        · show reconstruir st.padre (fuel + 1) v acc = (acc ++ [v], none)
          unfold reconstruir
          rw [hpv]
        · show esCadena g [v].reverse = true
          simp [esCadena]
        · show costoCamino g [v].reverse = some n
          simp [costoCamino, hn0]
      | some p =>
        obtain ⟨hp_vis, w, dp, hw, hadj, hdp, hdv⟩ := hc.enlace v p hpv
        have hn_eq : n = dp + w := by
          rw [hd] at hdv
          exact PyFloat.val.inj (Option.some.inj hdv)
        have hp_ord : p ∈ ord := (hmemiff p).mpr hp_vis
        have hlt := hidx v p hpv hv
        obtain ⟨l, hrec, hlne, hlhead, hllast, hlcad, hlcost⟩ :=
          ih p (acc ++ [v]) dp hp_ord hdp (by omega)
        refine ⟨v :: l, ?_, by simp, by simp, ?_, ?_, ?_⟩
        · show reconstruir st.padre (fuel + 1) v acc = (acc ++ v :: l, none)
          unfold reconstruir
          rw [hpv]
          dsimp only
          rw [hrec]
          simp
        · rw [getLast?_cons_ne v l hlne]
          exact hllast
        · rw [List.reverse_cons]
          exact esCadena_snoc l.reverse
            (by rw [List.getLast?_reverse]; exact hlhead) hlcad hadj
        · rw [List.reverse_cons]
          rw [costoCamino_snoc l.reverse hlcost
            (by rw [List.getLast?_reverse]; exact hlhead) hw]
          rw [hn_eq]

/-! ### End-to-end behavior of `dijkstra` -/

theorem dijkstra_eq {g : Grafo} {origen destino : Node} {st' : Estado}
    (hrun : buclePrincipal g.pesos destino (combustibleBucle g origen)
      (estadoInicial g origen) = (st', none)) :
    dijkstra g origen destino =
      (match st'.distancias destino with
       | none => (Salida.err .keyErr, { g with grafo := st'.gmapa })
       | some .inf => (Salida.ok none [] 0, { g with grafo := st'.gmapa })
       | some (.val n) =>
         match reconstruir st'.padre (combustibleCamino g) destino [] with
         | (_, some e2) => (Salida.err e2, { g with grafo := st'.gmapa })
         | (acc, none) =>
           (Salida.ok (some n) acc.reverse acc.reverse.length,
             { g with grafo := st'.gmapa })) := by
  unfold dijkstra
  rw [hrun]

theorem fuel_inicial (g : Grafo) (origen : Node) :
    (estadoInicial g origen).cola.length +
      (∑ y ∈ (insert origen g.vertices) \ (estadoInicial g origen).visitados,
        (adj g.grafo y).length) < combustibleBucle g origen := by
  show 1 + (∑ y ∈ (insert origen g.vertices) \ (∅ : Finset Node),
    (adj g.grafo y).length) < (∑ y ∈ insert origen g.vertices, (adj g.grafo y).length) + 2
  rw [Finset.sdiff_empty]
  omega

theorem dijkstra_alcanzable {g : Grafo} {origen destino : Node} (hwf : g.WF)
    (ho : origen ∈ g.vertices) (hd : destino ∈ g.vertices)
    (hreach : ∃ c, EsCamino g origen destino c) :
    ∃ n camino, (dijkstra g origen destino).1 = .ok (some n) camino camino.length ∧
      camino.head? = some origen ∧ camino.getLast? = some destino ∧
      esCadena g camino = true ∧ costoCamino g camino = some n ∧
      EsCamino g origen destino n ∧ ∀ c, EsCamino g origen destino c → n ≤ c := by
  obtain ⟨st', hrun, hcore, hpost⟩ := bucle_correcto hwf (combustibleBucle g origen)
    (estadoInicial g origen) (inv_inicial g origen)
    (by simp [estadoInicial]) (fuel_inicial g origen)
  have hdest_vis : destino ∈ st'.visitados := by
    rcases hpost with ⟨hnil, hnd, hfull⟩ | h
    · exfalso
      obtain ⟨c, hc⟩ := hreach
      obtain ⟨e, he, _⟩ := cubre hfull hc hnd
      rw [hnil] at he
      exact List.not_mem_nil e he
    · exact h
  obtain ⟨dT, hdT, hopt⟩ := hcore.optimo destino hdest_vis
  obtain ⟨ord, hnd, hmemiff, hidx⟩ := hcore.orden
  have hd_ord : destino ∈ ord := (hmemiff destino).mpr hdest_vis
  have hidx_lt : List.indexOf destino ord < combustibleCamino g := by
    have h1 : ord.toFinset.card = ord.length := List.toFinset_card_of_nodup hnd
    have h2 : ord.toFinset ⊆ insert origen g.vertices := by
      intro y hy
      rw [List.mem_toFinset] at hy
      exact hcore.visit_sub ((hmemiff y).mp hy)
    have h3 := Finset.card_le_card h2
    have h4 := Finset.card_insert_le origen g.vertices
    have h5 := List.indexOf_lt_length.mpr hd_ord
    show _ < g.vertices.card + 2
    omega
  obtain ⟨l, hrec, hlne, hlhead, hllast, hlcad, hlcost⟩ :=
    reconstruir_aux hcore ho hmemiff hidx (combustibleCamino g) destino [] dT hd_ord hdT
      hidx_lt
  refine ⟨dT, l.reverse, ?_, ?_, ?_, hlcad, hlcost,
    hcore.dist_camino destino dT hdT, hopt⟩
  · rw [List.nil_append] at hrec
    rw [dijkstra_eq hrun]
    show (match st'.distancias destino with
       | none => (Salida.err .keyErr, { g with grafo := st'.gmapa })
       | some .inf => (Salida.ok none [] 0, { g with grafo := st'.gmapa })
       | some (.val n) =>
         match reconstruir st'.padre (combustibleCamino g) destino [] with
         | (_, some e2) => (Salida.err e2, { g with grafo := st'.gmapa })
         | (acc, none) =>
           (Salida.ok (some n) acc.reverse acc.reverse.length,
             { g with grafo := st'.gmapa })).1 =
      Salida.ok (some dT) l.reverse l.reverse.length
    rw [hdT, hrec]
  · rw [List.head?_reverse]
    exact hllast
  · rw [List.getLast?_reverse]
    exact hlhead

theorem dijkstra_inalcanzable {g : Grafo} {origen destino : Node} (hwf : g.WF)
    (hd : destino ∈ g.vertices) (hunreach : ¬ ∃ c, EsCamino g origen destino c) :
    (dijkstra g origen destino).1 = .ok none [] 0 := by
  obtain ⟨st', hrun, hcore, hpost⟩ := bucle_correcto hwf (combustibleBucle g origen)
    (estadoInicial g origen) (inv_inicial g origen)
    (by simp [estadoInicial]) (fuel_inicial g origen)
  rcases hpost with ⟨hnil, hnd2, hfull⟩ | hvisd
  · have hsome : (st'.distancias destino).isSome := (hcore.dom_dist destino).mpr (Or.inr hd)
    cases hdd : st'.distancias destino with
    | none => rw [hdd] at hsome; simp at hsome
    | some dval =>
      cases dval with
      | inf =>
        rw [dijkstra_eq hrun]
        show (match st'.distancias destino with
           | none => (Salida.err .keyErr, { g with grafo := st'.gmapa })
           | some .inf => (Salida.ok none [] 0, { g with grafo := st'.gmapa })
           | some (.val n) =>
             match reconstruir st'.padre (combustibleCamino g) destino [] with
             | (_, some e2) => (Salida.err e2, { g with grafo := st'.gmapa })
             | (acc, none) =>
               (Salida.ok (some n) acc.reverse acc.reverse.length,
                 { g with grafo := st'.gmapa })).1 = Salida.ok none [] 0
        rw [hdd]
      | val nn =>
        exact absurd ⟨nn, hcore.dist_camino destino nn hdd⟩ hunreach
  · obtain ⟨dT, hdT, _⟩ := hcore.optimo destino hvisd
    exact absurd ⟨dT, hcore.dist_camino destino dT hdT⟩ hunreach

/-- The state after the single iteration that `dijkstra(s, s)` performs: the
entry `(0, s)` is popped and `s` is settled, then the loop breaks at the target. -/
def estadoMismo (g : Grafo) (s : Node) : Estado :=
  { estadoInicial g s with cola := [], visitados := insert s ∅ }

theorem bucle_mismo (g : Grafo) (s : Node) :
    buclePrincipal g.pesos s (combustibleBucle g s) (estadoInicial g s) =
      (estadoMismo g s, none) := by
  show buclePrincipal g.pesos s
      (((∑ y ∈ insert s g.vertices, (adj g.grafo y).length) + 1) + 1)
      (estadoInicial g s) = _
  rw [bucle_cons g.pesos s ((∑ y ∈ insert s g.vertices, (adj g.grafo y).length) + 1)
    (estadoInicial g s) (0, s) [] rfl]
  have hm : menorEntrada (0, s) ([] : List (ℕ × ℕ)) = (0, s) := rfl
  rw [hm, List.erase_cons_head]
  rw [if_neg (show ((0 : ℕ), s).2 ∉ (estadoInicial g s).visitados from
    Finset.not_mem_empty s)]
  rw [if_pos (show ((0 : ℕ), s).2 = s from rfl)]
  rfl

theorem dist_mismo (g : Grafo) (s : Node) :
    (estadoMismo g s).distancias s = some (.val 0) := by
  show (estadoInicial g s).distancias s = some (.val 0)
  rw [dist_inicial]
  simp

theorem dijkstra_mismo {g : Grafo} {s : Node} (hs : s ∈ g.vertices) :
    (dijkstra g s s).1 = .ok (some 0) [s] 1 := by
  rw [dijkstra_eq (bucle_mismo g s), dist_mismo g s]
  have hrec : reconstruir (estadoMismo g s).padre (combustibleCamino g) s [] =
      ([s], none) := by
    show reconstruir (estadoInicial g s).padre ((g.vertices.card + 1) + 1) s [] =
      ([s], none)
    unfold reconstruir
    have hp : (estadoInicial g s).padre s = some none := by
      show (if s ∈ g.vertices then some (none : Option Node) else none) = some none
      rw [if_pos hs]
    rw [hp]
    rfl
  rw [hrec]
  rfl

theorem dijkstra_mismo_ausente {g : Grafo} {s : Node} (hs : s ∉ g.vertices) :
    (dijkstra g s s).1 = .err .keyErr := by
  rw [dijkstra_eq (bucle_mismo g s), dist_mismo g s]
  have hrec : reconstruir (estadoMismo g s).padre (combustibleCamino g) s [] =
      ([s], some .keyErr) := by
    show reconstruir (estadoInicial g s).padre ((g.vertices.card + 1) + 1) s [] =
      ([s], some .keyErr)
    unfold reconstruir
    have hp : (estadoInicial g s).padre s = none := by
      show (if s ∈ g.vertices then some (none : Option Node) else none) = none
      rw [if_neg hs]
    rw [hp]
    rfl
  rw [hrec]

theorem dijkstra_destino_ausente {g : Grafo} {origen destino : Node} (hwf : g.WF)
    (hdne : destino ∉ g.vertices) (hne : destino ≠ origen) :
    (dijkstra g origen destino).1 = .err .keyErr := by
  obtain ⟨st', hrun, hcore, _⟩ := bucle_correcto hwf (combustibleBucle g origen)
    (estadoInicial g origen) (inv_inicial g origen)
    (by simp [estadoInicial]) (fuel_inicial g origen)
  have hdd : st'.distancias destino = none := by
    cases h : st'.distancias destino with
    | none => rfl
    | some dv =>
      have hsome : (st'.distancias destino).isSome := by rw [h]; rfl
      rcases (hcore.dom_dist destino).mp hsome with h1 | h1
      · exact absurd h1 hne
      · exact absurd h1 hdne
  rw [dijkstra_eq hrun]
  rw [hdd]

theorem dijkstra_origen_ausente {g : Grafo} {origen destino : Node} (hwf : g.WF)
    (ho : origen ∉ g.vertices) (hd : destino ∈ g.vertices) :
    (dijkstra g origen destino).1 = .ok none [] 0 :=
  dijkstra_inalcanzable hwf hd (no_camino_of_absent hwf ho hd)

theorem dijkstra_termina {g : Grafo} {origen destino : Node} (hwf : g.WF)
    (ho : origen ∈ g.vertices) (hd : destino ∈ g.vertices) :
    ∃ r1 r2 r3, (dijkstra g origen destino).1 = .ok r1 r2 r3 := by
  by_cases h : ∃ c, EsCamino g origen destino c
  · obtain ⟨n, camino, heq, _⟩ := dijkstra_alcanzable hwf ho hd h
    exact ⟨some n, camino, camino.length, heq⟩
  · exact ⟨none, [], 0, dijkstra_inalcanzable hwf hd h⟩

/-! ### Fuel monotonicity and congruence of the search -/

theorem bucle_mono {pesos : Node × Node → Option ℕ} {destino : Node} :
    ∀ fuel (st st' : Estado),
    buclePrincipal pesos destino fuel st = (st', none) →
    buclePrincipal pesos destino (fuel + 1) st = (st', none) := by
  intro fuel
  induction fuel with
  | zero =>
    intro st st' h
    by_cases hc : st.cola.isEmpty
    · have h0 : buclePrincipal pesos destino 0 st = (st, none) := by
        simp [buclePrincipal, hc]
      rw [h0] at h
      injection h with h1 _
      rw [← h1]
      exact bucle_nil (List.isEmpty_iff.mp hc)
    · have h0 : buclePrincipal pesos destino 0 st = (st, some .fuelOut) := by
        simp [buclePrincipal, hc]
      rw [h0] at h
      injection h with _ h2
      simp at h2
  | succ fuel ih =>
    intro st st' h
    cases hcola : st.cola with
    | nil =>
      rw [bucle_nil hcola] at h
      injection h with h1 _
      rw [← h1]
      exact bucle_nil hcola
    | cons x xs =>
      rw [bucle_cons pesos destino fuel st x xs hcola] at h
      rw [bucle_cons pesos destino (fuel + 1) st x xs hcola]
      by_cases hvis : (menorEntrada x xs).2 ∈ st.visitados
      · rw [if_pos hvis] at h ⊢
        exact ih _ _ h
      · rw [if_neg hvis] at h ⊢
        by_cases hdest : (menorEntrada x xs).2 = destino
        · rw [if_pos hdest] at h ⊢
          exact h
        · rw [if_neg hdest] at h ⊢
          cases hrel : relajarTodos pesos (menorEntrada x xs).1 (menorEntrada x xs).2
            { st with cola := (x :: xs).erase (menorEntrada x xs),
                      visitados := insert (menorEntrada x xs).2 st.visitados,
                      gmapa := (getDefault st.gmapa (menorEntrada x xs).2).2 }
            (getDefault st.gmapa (menorEntrada x xs).2).1 with
          | mk st2 e2 =>
            rw [hrel] at h
            cases e2 with
            | none => exact ih _ _ h
            | some e => exact h

theorem bucle_mono_le {pesos : Node × Node → Option ℕ} {destino : Node}
    {fuel fuel' : ℕ} (hle : fuel ≤ fuel') {st st' : Estado}
    (h : buclePrincipal pesos destino fuel st = (st', none)) :
    buclePrincipal pesos destino fuel' st = (st', none) := by
  induction hle with
  | refl => exact h
  | step _ ih => exact bucle_mono _ _ _ ih

theorem relajar_gmapa_const (pesos : Node × Node → Option ℕ) (d : ℕ) (u : Node)
    (st : Estado) (v : Node) : (relajar pesos d u st v).1.gmapa = st.gmapa := by
  unfold relajar
  cases pesos (u, v) with
  | none => rfl
  | some w =>
    cases st.distancias v with
    | none => rfl
    | some dv =>
      dsimp only
      by_cases h : ltFloat (d + w) dv = true
      · rw [if_pos h]
      · rw [if_neg h]

theorem relajar_gmapa (pesos : Node × Node → Option ℕ) (d : ℕ) (u : Node)
    (st : Estado) (gm : Node → Option (List Node)) (v : Node) :
    relajar pesos d u { st with gmapa := gm } v =
      ({ (relajar pesos d u st v).1 with gmapa := gm }, (relajar pesos d u st v).2) := by
  unfold relajar
  dsimp only
  cases pesos (u, v) with
  | none => rfl
  | some w =>
    cases st.distancias v with
    | none => rfl
    | some dv =>
      dsimp only
      by_cases h : ltFloat (d + w) dv = true
      · simp only [if_pos h]
      · simp only [if_neg h]

theorem relajarTodos_gmapa (pesos : Node × Node → Option ℕ) (d : ℕ) (u : Node) :
    ∀ (vs : List Node) (st : Estado) (gm : Node → Option (List Node)),
    relajarTodos pesos d u { st with gmapa := gm } vs =
      ({ (relajarTodos pesos d u st vs).1 with gmapa := gm },
        (relajarTodos pesos d u st vs).2) := by
  intro vs
  induction vs with
  | nil => intro st gm; rfl
  | cons v vs ih =>
    intro st gm
    have hL : relajarTodos pesos d u { st with gmapa := gm } (v :: vs) =
        (match relajar pesos d u { st with gmapa := gm } v with
        | (st', none) => relajarTodos pesos d u st' vs
        | (st', some e) => (st', some e)) := rfl
    have hR : relajarTodos pesos d u st (v :: vs) =
        (match relajar pesos d u st v with
        | (st', none) => relajarTodos pesos d u st' vs
        | (st', some e) => (st', some e)) := rfl
    rw [hL, hR, relajar_gmapa]
    cases hrel : relajar pesos d u st v with
    | mk st1 e =>
      cases e with
      | none => exact ih st1 gm
      | some e1 => rfl

theorem relajarTodos_gmapa_const (pesos : Node × Node → Option ℕ) (d : ℕ) (u : Node) :
    ∀ (vs : List Node) (st : Estado),
    (relajarTodos pesos d u st vs).1.gmapa = st.gmapa := by
  intro vs
  induction vs with
  | nil => intro st; rfl
  | cons v vs ih =>
    intro st
    show (match relajar pesos d u st v with
      | (st', none) => relajarTodos pesos d u st' vs
      | (st', some e) => (st', some e)).1.gmapa = st.gmapa
    cases hrel : relajar pesos d u st v with
    | mk st1 e =>
      have hg : st1.gmapa = st.gmapa := by
        have := relajar_gmapa_const pesos d u st v
        rw [hrel] at this
        exact this
      cases e with
      | none => rw [ih st1]; exact hg
      | some e1 => exact hg

theorem relajar_idem {pesos : Node × Node → Option ℕ} {d : ℕ} {u : Node}
    {st st1 : Estado} {v : Node} (h : relajar pesos d u st v = (st1, none)) :
    relajar pesos d u st1 v = (st1, none) := by
  unfold relajar at h ⊢
  cases hpw : pesos (u, v) with
  | none => rw [hpw] at h; simp at h
  | some w =>
    rw [hpw] at h
    dsimp only at h ⊢
    cases hdv : st.distancias v with
    | none => rw [hdv] at h; simp at h
    | some dv =>
      rw [hdv] at h
      dsimp only at h
      by_cases hlt : ltFloat (d + w) dv = true
      · rw [if_pos hlt] at h
        injection h with h1 _
        rw [← h1]
        dsimp only
        rw [upd_self]
        dsimp only
        rw [if_neg (show ¬ ltFloat (d + w) (.val (d + w)) = true by simp [ltFloat])]
      · rw [if_neg hlt] at h
        injection h with h1 _
        rw [← h1]
        rw [hdv]
        dsimp only
        rw [if_neg hlt]

theorem relajarTodos_dup {pesos : Node × Node → Option ℕ} {d : ℕ} {u v : Node} :
    ∀ (l : List Node) (st : Estado),
    relajarTodos pesos d u st (l ++ [v, v]) = relajarTodos pesos d u st (l ++ [v]) := by
  intro l
  induction l with
  | nil =>
    intro st
    show (match relajar pesos d u st v with
      | (st', none) => relajarTodos pesos d u st' [v]
      | (st', some e) => (st', some e)) =
      (match relajar pesos d u st v with
      | (st', none) => relajarTodos pesos d u st' []
      | (st', some e) => (st', some e))
    cases hrel : relajar pesos d u st v with
    | mk st1 e =>
      cases e with
      | none =>
        show relajarTodos pesos d u st1 [v] = relajarTodos pesos d u st1 []
        show (match relajar pesos d u st1 v with
          | (st', none) => relajarTodos pesos d u st' []
          | (st', some e) => (st', some e)) = _
        rw [relajar_idem hrel]
      | some e1 => rfl
  | cons a as ih =>
    intro st
    show (match relajar pesos d u st a with
      | (st', none) => relajarTodos pesos d u st' (as ++ [v, v])
      | (st', some e) => (st', some e)) =
      (match relajar pesos d u st a with
      | (st', none) => relajarTodos pesos d u st' (as ++ [v])
      | (st', some e) => (st', some e))
    cases hrel : relajar pesos d u st a with
    | mk st1 e =>
      cases e with
      | none => exact ih st1
      | some e1 => rfl

/-- Two adjacency maps observed equal, except possibly one immediately duplicated
trailing neighbor at some nodes (exactly the difference a repeated
`agregar_arista` produces). -/
def GRel (A B : Node → Option (List Node)) : Prop :=
  ∀ x, adj A x = adj B x ∨ ∃ l vv, adj A x = l ++ [vv, vv] ∧ adj B x = l ++ [vv]

theorem GRel_touch {A B : Node → Option (List Node)} (h : GRel A B) (u : Node) :
    GRel (getDefault A u).2 (getDefault B u).2 := by
  intro x
  rw [adj_getDefault_snd, adj_getDefault_snd]
  exact h x

/-- Search states equal except for the stored adjacency map, which is `GRel`-related. -/
def EqSalvo (st1 st2 : Estado) : Prop :=
  st1.distancias = st2.distancias ∧ st1.padre = st2.padre ∧
  st1.visitados = st2.visitados ∧ st1.cola = st2.cola ∧ GRel st1.gmapa st2.gmapa

theorem relajarTodos_gm2 (pesos : Node × Node → Option ℕ) (d : ℕ) (u : Node)
    (vs : List Node) (dd : Node → Option PyFloat) (pp : Node → Option (Option Node))
    (vv : Finset Node) (cc : List (ℕ × Node)) (gm1 gm2 : Node → Option (List Node)) :
    relajarTodos pesos d u ⟨dd, pp, vv, cc, gm1⟩ vs =
      ({ (relajarTodos pesos d u ⟨dd, pp, vv, cc, gm2⟩ vs).1 with gmapa := gm1 },
        (relajarTodos pesos d u ⟨dd, pp, vv, cc, gm2⟩ vs).2) :=
  relajarTodos_gmapa pesos d u vs ⟨dd, pp, vv, cc, gm2⟩ gm1

theorem bucle_congr {pesos : Node × Node → Option ℕ} {destino : Node} :
    ∀ fuel (st : Estado) (gm : Node → Option (List Node)), GRel gm st.gmapa →
    EqSalvo (buclePrincipal pesos destino fuel { st with gmapa := gm }).1
      (buclePrincipal pesos destino fuel st).1 ∧
    (buclePrincipal pesos destino fuel { st with gmapa := gm }).2 =
      (buclePrincipal pesos destino fuel st).2 := by
  intro fuel
  induction fuel with
  | zero =>
    intro st gm hg
    by_cases hc : st.cola.isEmpty
    · have e1 : buclePrincipal pesos destino 0 { st with gmapa := gm } =
          ({ st with gmapa := gm }, none) := by simp [buclePrincipal, hc]
      have e2 : buclePrincipal pesos destino 0 st = (st, none) := by
        simp [buclePrincipal, hc]
      rw [e1, e2]
      exact ⟨⟨rfl, rfl, rfl, rfl, hg⟩, rfl⟩
    · have e1 : buclePrincipal pesos destino 0 { st with gmapa := gm } =
          ({ st with gmapa := gm }, some .fuelOut) := by simp [buclePrincipal, hc]
      have e2 : buclePrincipal pesos destino 0 st = (st, some .fuelOut) := by
        simp [buclePrincipal, hc]
      rw [e1, e2]
      exact ⟨⟨rfl, rfl, rfl, rfl, hg⟩, rfl⟩
  | succ fuel ih =>
    intro st gm hg
    cases hcola : st.cola with
    | nil =>
      have hA : buclePrincipal pesos destino (fuel + 1)
          (⟨st.distancias, st.padre, st.visitados, [], gm⟩ : Estado) =
          ((⟨st.distancias, st.padre, st.visitados, [], gm⟩ : Estado), none) :=
        bucle_nil rfl
      rw [bucle_nil hcola, hA]
      exact ⟨⟨rfl, rfl, rfl, hcola.symm, hg⟩, rfl⟩
    | cons x xs =>
      rw [bucle_cons pesos destino fuel
          (⟨st.distancias, st.padre, st.visitados, x :: xs, gm⟩ : Estado) x xs rfl,
          bucle_cons pesos destino fuel st x xs hcola]
      dsimp only
      by_cases hvis : (menorEntrada x xs).2 ∈ st.visitados
      · simp only [if_pos hvis]
        exact ih { st with cola := (x :: xs).erase (menorEntrada x xs) } gm hg
      · simp only [if_neg hvis]
        by_cases hdest : (menorEntrada x xs).2 = destino
        · simp only [if_pos hdest]
          exact ⟨⟨rfl, rfl, rfl, rfl, hg⟩, trivial⟩
        · simp only [if_neg hdest]
          have hGt : GRel (getDefault gm (menorEntrada x xs).2).2
              (getDefault st.gmapa (menorEntrada x xs).2).2 :=
            GRel_touch hg (menorEntrada x xs).2
          have hlist : relajarTodos pesos (menorEntrada x xs).1 (menorEntrada x xs).2
              ⟨st.distancias, st.padre, insert (menorEntrada x xs).2 st.visitados,
               (x :: xs).erase (menorEntrada x xs),
               (getDefault gm (menorEntrada x xs).2).2⟩
              ((getDefault gm (menorEntrada x xs).2).1) =
            relajarTodos pesos (menorEntrada x xs).1 (menorEntrada x xs).2
              ⟨st.distancias, st.padre, insert (menorEntrada x xs).2 st.visitados,
               (x :: xs).erase (menorEntrada x xs),
               (getDefault gm (menorEntrada x xs).2).2⟩
              ((getDefault st.gmapa (menorEntrada x xs).2).1) := by
            rcases hg (menorEntrada x xs).2 with hEq | ⟨l, vv, hA1, hB1⟩
            · rw [getDefault_fst, getDefault_fst, hEq]
            · rw [getDefault_fst, getDefault_fst, hA1, hB1, relajarTodos_dup]
          rw [hlist]
          rw [relajarTodos_gm2 pesos (menorEntrada x xs).1 (menorEntrada x xs).2
            ((getDefault st.gmapa (menorEntrada x xs).2).1) st.distancias st.padre
            (insert (menorEntrada x xs).2 st.visitados)
            ((x :: xs).erase (menorEntrada x xs))
            ((getDefault gm (menorEntrada x xs).2).2)
            ((getDefault st.gmapa (menorEntrada x xs).2).2)]
          cases hrelB : relajarTodos pesos (menorEntrada x xs).1 (menorEntrada x xs).2
              ⟨st.distancias, st.padre, insert (menorEntrada x xs).2 st.visitados,
               (x :: xs).erase (menorEntrada x xs),
               (getDefault st.gmapa (menorEntrada x xs).2).2⟩
              ((getDefault st.gmapa (menorEntrada x xs).2).1) with
          | mk stB eB =>
            have hstBg : stB.gmapa = (getDefault st.gmapa (menorEntrada x xs).2).2 := by
              have h := relajarTodos_gmapa_const pesos (menorEntrada x xs).1
                (menorEntrada x xs).2 ((getDefault st.gmapa (menorEntrada x xs).2).1)
                ⟨st.distancias, st.padre, insert (menorEntrada x xs).2 st.visitados,
                 (x :: xs).erase (menorEntrada x xs),
                 (getDefault st.gmapa (menorEntrada x xs).2).2⟩
              rw [hrelB] at h
              exact h
            have hGrel2 : GRel (getDefault gm (menorEntrada x xs).2).2 stB.gmapa := by
              rw [hstBg]
              exact hGt
            cases eB with
            | some e1 => exact ⟨⟨rfl, rfl, rfl, rfl, hGrel2⟩, rfl⟩
            | none => exact ih stB (getDefault gm (menorEntrada x xs).2).2 hGrel2

theorem bucle_adj {pesos : Node × Node → Option ℕ} {destino : Node} :
    ∀ fuel (st : Estado) (y : Node),
    adj (buclePrincipal pesos destino fuel st).1.gmapa y = adj st.gmapa y := by
  intro fuel
  induction fuel with
  | zero =>
    intro st y
    unfold buclePrincipal
    by_cases hc : st.cola.isEmpty
    · rw [if_pos hc]
    · rw [if_neg hc]
  | succ fuel ih =>
    intro st y
    cases hcola : st.cola with
    | nil => rw [bucle_nil hcola]
    | cons x xs =>
      rw [bucle_cons pesos destino fuel st x xs hcola]
      by_cases hvis : (menorEntrada x xs).2 ∈ st.visitados
      · rw [if_pos hvis]
        exact ih _ y
      · rw [if_neg hvis]
        by_cases hdest : (menorEntrada x xs).2 = destino
        · rw [if_pos hdest]
        · rw [if_neg hdest]
          cases hrel : relajarTodos pesos (menorEntrada x xs).1 (menorEntrada x xs).2
              { st with cola := (x :: xs).erase (menorEntrada x xs),
                        visitados := insert (menorEntrada x xs).2 st.visitados,
                        gmapa := (getDefault st.gmapa (menorEntrada x xs).2).2 }
              (getDefault st.gmapa (menorEntrada x xs).2).1 with
          | mk st2 e2 =>
            have hg2 : st2.gmapa = (getDefault st.gmapa (menorEntrada x xs).2).2 := by
              have h := relajarTodos_gmapa_const pesos (menorEntrada x xs).1
                (menorEntrada x xs).2 ((getDefault st.gmapa (menorEntrada x xs).2).1)
                { st with cola := (x :: xs).erase (menorEntrada x xs),
                          visitados := insert (menorEntrada x xs).2 st.visitados,
                          gmapa := (getDefault st.gmapa (menorEntrada x xs).2).2 }
              rw [hrel] at h
              exact h
            have hadj2 : adj st2.gmapa y = adj st.gmapa y := by
              rw [hg2, adj_getDefault_snd]
            cases e2 with
            | none => exact (ih st2 y).trans hadj2
            | some e => exact hadj2

theorem dijkstra_eq_err {g : Grafo} {origen destino : Node} {st' : Estado} {e1 : Falla}
    (hrun : buclePrincipal g.pesos destino (combustibleBucle g origen)
      (estadoInicial g origen) = (st', some e1)) :
    dijkstra g origen destino = (.err e1, { g with grafo := st'.gmapa }) := by
  unfold dijkstra
  rw [hrun]

theorem dijkstra_snd (g : Grafo) (origen destino : Node) :
    (dijkstra g origen destino).2 =
      { g with grafo := (buclePrincipal g.pesos destino (combustibleBucle g origen)
        (estadoInicial g origen)).1.gmapa } := by
  cases hb : buclePrincipal g.pesos destino (combustibleBucle g origen)
      (estadoInicial g origen) with
  | mk st' e =>
    cases e with
    | some e1 => rw [dijkstra_eq_err hb]
    | none =>
      rw [dijkstra_eq hb]
      cases hdd : st'.distancias destino with
      | none => rfl
      | some pf =>
        cases pf with
        | inf => rfl
        | val n =>
          cases hr : reconstruir st'.padre (combustibleCamino g) destino [] with
          | mk acc e2 => cases e2 <;> rfl

theorem dijkstra_congr {g1 g2 : Grafo} (hv : g1.vertices = g2.vertices)
    (hp : g1.pesos = g2.pesos) (hadj : ∀ x, adj g1.grafo x = adj g2.grafo x)
    (origen destino : Node) :
    (dijkstra g1 origen destino).1 = (dijkstra g2 origen destino).1 := by
  have hfuel : combustibleBucle g1 origen = combustibleBucle g2 origen := by
    unfold combustibleBucle
    rw [hv]
    congr 1
    exact Finset.sum_congr rfl (fun y _ => by rw [hadj y])
  have hst : estadoInicial g1 origen =
      { estadoInicial g2 origen with gmapa := g1.grafo } := by
    unfold estadoInicial
    rw [hv]
  have hGr : GRel g1.grafo (estadoInicial g2 origen).gmapa := fun x => Or.inl (hadj x)
  obtain ⟨stA, eA, hrunA⟩ : ∃ stA eA, buclePrincipal g1.pesos destino
      (combustibleBucle g1 origen) (estadoInicial g1 origen) = (stA, eA) := ⟨_, _, rfl⟩
  obtain ⟨stB, eB, hrunB⟩ : ∃ stB eB, buclePrincipal g2.pesos destino
      (combustibleBucle g2 origen) (estadoInicial g2 origen) = (stB, eB) := ⟨_, _, rfl⟩
  have hrunA' : buclePrincipal g2.pesos destino (combustibleBucle g2 origen)
      { estadoInicial g2 origen with gmapa := g1.grafo } = (stA, eA) := by
    rw [← hp, ← hfuel, ← hst]
    exact hrunA
  have hcong := @bucle_congr g2.pesos destino (combustibleBucle g2 origen)
    (estadoInicial g2 origen) g1.grafo hGr
  rw [hrunA', hrunB] at hcong
  obtain ⟨⟨h1, h2, h3, h4, h5⟩, he⟩ := hcong
  dsimp only at h1 h2 h3 h4 h5 he
  cases eB with
  | some e1 =>
    rw [he] at hrunA
    rw [dijkstra_eq_err hrunA, dijkstra_eq_err hrunB]
  | none =>
    rw [he] at hrunA
    rw [dijkstra_eq hrunA, dijkstra_eq hrunB]
    have hdist : stA.distancias destino = stB.distancias destino := by rw [h1]
    have hcam : combustibleCamino g1 = combustibleCamino g2 := by
      unfold combustibleCamino
      rw [hv]
    rw [hdist, h2, hcam]
    cases stB.distancias destino with
    | none => rfl
    | some pf =>
      cases pf with
      | inf => rfl
      | val n =>
        cases reconstruir stB.padre (combustibleCamino g2) destino [] with
        | mk acc e2 => cases e2 <;> rfl

theorem dijkstra_congr_grel {g1 g2 : Grafo} (hwf1 : g1.WF) (hwf2 : g2.WF)
    (hv : g1.vertices = g2.vertices) (hp : g1.pesos = g2.pesos)
    (hGr : GRel g1.grafo g2.grafo) (origen destino : Node) :
    (dijkstra g1 origen destino).1 = (dijkstra g2 origen destino).1 := by
  obtain ⟨stA, hrunA, _, _⟩ := bucle_correcto hwf1 (combustibleBucle g1 origen)
    (estadoInicial g1 origen) (inv_inicial g1 origen)
    (by simp [estadoInicial]) (fuel_inicial g1 origen)
  obtain ⟨stB, hrunB, _, _⟩ := bucle_correcto hwf2 (combustibleBucle g2 origen)
    (estadoInicial g2 origen) (inv_inicial g2 origen)
    (by simp [estadoInicial]) (fuel_inicial g2 origen)
  have hA : buclePrincipal g1.pesos destino
      (max (combustibleBucle g1 origen) (combustibleBucle g2 origen))
      (estadoInicial g1 origen) = (stA, none) :=
    bucle_mono_le (le_max_left _ _) hrunA
  have hB : buclePrincipal g2.pesos destino
      (max (combustibleBucle g1 origen) (combustibleBucle g2 origen))
      (estadoInicial g2 origen) = (stB, none) :=
    bucle_mono_le (le_max_right _ _) hrunB
  have hst : estadoInicial g1 origen =
      { estadoInicial g2 origen with gmapa := g1.grafo } := by
    unfold estadoInicial
    rw [hv]
  have hGr' : GRel g1.grafo (estadoInicial g2 origen).gmapa := hGr
  have hA' : buclePrincipal g2.pesos destino
      (max (combustibleBucle g1 origen) (combustibleBucle g2 origen))
      { estadoInicial g2 origen with gmapa := g1.grafo } = (stA, none) := by
    rw [← hp, ← hst]
    exact hA
  have hcong := @bucle_congr g2.pesos destino
    (max (combustibleBucle g1 origen) (combustibleBucle g2 origen))
    (estadoInicial g2 origen) g1.grafo hGr'
  rw [hA', hB] at hcong
  obtain ⟨⟨h1, h2, h3, h4, h5⟩, _⟩ := hcong
  dsimp only at h1 h2 h3 h4 h5
  rw [dijkstra_eq hrunA, dijkstra_eq hrunB]
  have hdist : stA.distancias destino = stB.distancias destino := by rw [h1]
  have hcam : combustibleCamino g1 = combustibleCamino g2 := by
    unfold combustibleCamino
    rw [hv]
  rw [hdist, h2, hcam]
  cases stB.distancias destino with
  | none => rfl
  | some pf =>
    cases pf with
    | inf => rfl
    | val n =>
      cases reconstruir stB.padre (combustibleCamino g2) destino [] with
      | mk acc e2 => cases e2 <;> rfl

theorem dijkstra_repetido (g : Grafo) (s t : Node) :
    (dijkstra (dijkstra g s t).2 s t).1 = (dijkstra g s t).1 ∧
    (dijkstra g s t).2.vertices = g.vertices ∧
    (dijkstra g s t).2.pesos = g.pesos ∧
    (∀ x, adj (dijkstra g s t).2.grafo x = adj g.grafo x) := by
  have hsnd := dijkstra_snd g s t
  have hadj : ∀ x, adj (dijkstra g s t).2.grafo x = adj g.grafo x := by
    intro x
    rw [hsnd]
    exact bucle_adj (combustibleBucle g s) (estadoInicial g s) x
  have hv : (dijkstra g s t).2.vertices = g.vertices := by rw [hsnd]
  have hp : (dijkstra g s t).2.pesos = g.pesos := by rw [hsnd]
  exact ⟨dijkstra_congr hv hp hadj s t, hv, hp, hadj⟩

theorem agregar_dos_veces {g : Grafo} (hwf : g.WF) (u v : Node) (w1 w2 : ℕ)
    (s t : Node) :
    (agregar_arista (agregar_arista g u v w1) u v w2).pesos (u, v) = some w2 ∧
    (dijkstra (agregar_arista (agregar_arista g u v w1) u v w2) s t).1 =
      (dijkstra (agregar_arista g u v w2) s t).1 := by
  refine ⟨by rw [pesos_agregar, upd_self], ?_⟩
  have hvert : (agregar_arista (agregar_arista g u v w1) u v w2).vertices =
      (agregar_arista g u v w2).vertices := by
    rw [vertices_agregar, vertices_agregar, vertices_agregar]
    ext y
    simp only [Finset.mem_insert]
    tauto
  have hpes : (agregar_arista (agregar_arista g u v w1) u v w2).pesos =
      (agregar_arista g u v w2).pesos := by
    rw [pesos_agregar, pesos_agregar, pesos_agregar]
    funext p
    by_cases hk : p = (u, v)
    · rw [hk, upd_self, upd_self]
    · rw [upd_ne _ _ _ _ hk, upd_ne _ _ _ _ hk, upd_ne _ _ _ _ hk]
  have hGr : GRel (agregar_arista (agregar_arista g u v w1) u v w2).grafo
      (agregar_arista g u v w2).grafo := by
    intro x
    by_cases hx : x = u
    · right
      refine ⟨adj g.grafo u, v, ?_, ?_⟩
      · rw [adj_agregar, if_pos hx, adj_agregar, if_pos rfl, List.append_assoc]
        rfl
      · rw [adj_agregar, if_pos hx]
    · left
      rw [adj_agregar, if_neg hx, adj_agregar, if_neg hx, adj_agregar, if_neg hx]
  exact dijkstra_congr_grel (wf_agregar (wf_agregar hwf u v w1) u v w2)
    (wf_agregar hwf u v w2) hvert hpes hGr s t

/-! ### The claims -/

/-- C1: for every well-formed graph (non-negative weights are intrinsic to the
model) and every source and target in the node set with the target reachable by
a directed path, `dijkstra` returns a total cost that is attained by some
directed path and is a lower bound of all directed-path costs from source to
target, i.e. the true minimum. -/
theorem claim_C1 (g : Grafo) (hwf : g.WF) (origen destino : Node)
    (ho : origen ∈ g.vertices) (hd : destino ∈ g.vertices)
    (hreach : ∃ c, EsCamino g origen destino c) :
    ∃ n camino, (dijkstra g origen destino).1 = .ok (some n) camino camino.length ∧
      EsCamino g origen destino n ∧ ∀ c, EsCamino g origen destino c → n ≤ c := by
  obtain ⟨n, camino, heq, _, _, _, _, hach, hmin⟩ := dijkstra_alcanzable hwf ho hd hreach
  exact ⟨n, camino, heq, hach, hmin⟩

theorem claim_C1_witness :
    ∃ n camino,
      (dijkstra (buildGrafo [(0, 1, 5)]) 0 1).1 = .ok (some n) camino camino.length ∧
      EsCamino (buildGrafo [(0, 1, 5)]) 0 1 n ∧
      ∀ c, EsCamino (buildGrafo [(0, 1, 5)]) 0 1 c → n ≤ c :=
  claim_C1 (buildGrafo [(0, 1, 5)]) (buildGrafo_WF _) 0 1 (by decide) (by decide)
    ⟨_, .cons (by decide)
      (show (buildGrafo [(0, 1, 5)]).pesos (0, 1) = some 5 by decide) (.nil 1)⟩

/-- C2: for every well-formed graph and source/target in the node set with the
target reachable, the returned path starts at the source, ends at the target,
every consecutive pair is an edge observable in the adjacency map, the sum of
the recorded weights along it equals the returned total cost exactly, and the
returned length is the number of nodes of the path. -/
theorem claim_C2 (g : Grafo) (hwf : g.WF) (origen destino : Node)
    (ho : origen ∈ g.vertices) (hd : destino ∈ g.vertices)
    (hreach : ∃ c, EsCamino g origen destino c) :
    ∃ n camino, (dijkstra g origen destino).1 = .ok (some n) camino camino.length ∧
      camino.head? = some origen ∧ camino.getLast? = some destino ∧
      esCadena g camino = true ∧ costoCamino g camino = some n := by
  obtain ⟨n, camino, heq, hhead, hlast, hcad, hcost, _, _⟩ :=
    dijkstra_alcanzable hwf ho hd hreach
  exact ⟨n, camino, heq, hhead, hlast, hcad, hcost⟩

theorem claim_C2_witness :
    ∃ n camino,
      (dijkstra (buildGrafo [(0, 1, 5)]) 0 1).1 = .ok (some n) camino camino.length ∧
      camino.head? = some 0 ∧ camino.getLast? = some 1 ∧
      esCadena (buildGrafo [(0, 1, 5)]) camino = true ∧
      costoCamino (buildGrafo [(0, 1, 5)]) camino = some n :=
  claim_C2 (buildGrafo [(0, 1, 5)]) (buildGrafo_WF _) 0 1 (by decide) (by decide)
    ⟨_, .cons (by decide)
      (show (buildGrafo [(0, 1, 5)]).pesos (0, 1) = some 5 by decide) (.nil 1)⟩

/-- C3: for every well-formed graph and source/target in the node set, if no
directed path exists from source to target, `dijkstra` returns the unreachable
variant: Python's `None` sentinel cost, an empty path, and length 0 — as a
normal return value, not an exception. -/
theorem claim_C3 (g : Grafo) (hwf : g.WF) (origen destino : Node)
    (ho : origen ∈ g.vertices) (hd : destino ∈ g.vertices)
    (hunreach : ¬ ∃ c, EsCamino g origen destino c) :
    (dijkstra g origen destino).1 = .ok none [] 0 :=
  dijkstra_inalcanzable hwf hd hunreach

theorem claim_C3_witness :
    (dijkstra (buildGrafo [(0, 1, 5), (2, 3, 4)]) 0 2).1 = .ok none [] 0 := by
  refine claim_C3 (buildGrafo [(0, 1, 5), (2, 3, 4)]) (buildGrafo_WF _) 0 2
    (by decide) (by decide) ?_
  rintro ⟨c, hc⟩
  cases hc with
  | cons hv hw h =>
    have hb : adj (buildGrafo [(0, 1, 5), (2, 3, 4)]).grafo 0 = [1] := by decide
    rw [hb, List.mem_singleton] at hv
    subst hv
    cases h with
    | cons hv2 _ _ =>
      have hb2 : adj (buildGrafo [(0, 1, 5), (2, 3, 4)]).grafo 1 = [] := by decide
      rw [hb2] at hv2
      exact absurd hv2 (List.not_mem_nil _)

/-- C4: for every graph and every node `s` of its node set, `dijkstra(s, s)`
returns total cost 0, the single-node path `[s]`, and length 1. -/
theorem claim_C4 (g : Grafo) (s : Node) (hs : s ∈ g.vertices) :
    (dijkstra g s s).1 = .ok (some 0) [s] 1 :=
  dijkstra_mismo hs

theorem claim_C4_witness :
    (dijkstra (buildGrafo [(0, 1, 5)]) 0 0).1 = .ok (some 0) [0] 1 :=
  claim_C4 (buildGrafo [(0, 1, 5)]) 0 (by decide)

/-- C5: for every well-formed graph and target in the node set, if the source is
absent from the node set then `dijkstra` returns the unreachable variant
(sentinel cost, empty path, length 0) as a normal value rather than raising. -/
theorem claim_C5 (g : Grafo) (hwf : g.WF) (origen destino : Node)
    (ho : origen ∉ g.vertices) (hd : destino ∈ g.vertices) :
    (dijkstra g origen destino).1 = .ok none [] 0 :=
  dijkstra_origen_ausente hwf ho hd

theorem claim_C5_witness :
    (dijkstra (buildGrafo [(0, 1, 5)]) 7 0).1 = .ok none [] 0 :=
  claim_C5 (buildGrafo [(0, 1, 5)]) (buildGrafo_WF _) 7 0 (by decide) (by decide)

/-- C6: inserting the edge (u, v) twice, first with weight w1 and then with w2,
records w2 for the ordered pair (u, v) with no error, and every subsequent
`dijkstra` query returns exactly what it returns on the graph where (u, v) was
inserted once with w2 (last write wins). -/
theorem claim_C6 (g : Grafo) (hwf : g.WF) (u v : Node) (w1 w2 : ℕ) (s t : Node) :
    (agregar_arista (agregar_arista g u v w1) u v w2).pesos (u, v) = some w2 ∧
    (dijkstra (agregar_arista (agregar_arista g u v w1) u v w2) s t).1 =
      (dijkstra (agregar_arista g u v w2) s t).1 :=
  agregar_dos_veces hwf u v w1 w2 s t

theorem claim_C6_witness :
    (agregar_arista (agregar_arista (buildGrafo [(0, 1, 5)]) 0 1 9) 0 1 3).pesos
        (0, 1) = some 3 ∧
    (dijkstra (agregar_arista (agregar_arista (buildGrafo [(0, 1, 5)]) 0 1 9) 0 1 3)
        0 1).1 =
      (dijkstra (agregar_arista (buildGrafo [(0, 1, 5)]) 0 1 3) 0 1).1 :=
  claim_C6 (buildGrafo [(0, 1, 5)]) (buildGrafo_WF _) 0 1 9 3 0 1

set_option maxRecDepth 20000 in
/-- C7: on the hardcoded 25-node 5×5 grid, `dijkstra(0, 24)` returns the finite
cost 129 with the path [0, 1, 2, 7, 12, 13, 18, 19, 24] of returned length equal
to its number of nodes; 129 is a lower bound of the cost of every directed route
from 0 to 24 in that graph, and in particular at most 132 (the cost of the
top-row-then-right-column route). -/
theorem claim_C7 :
    (dijkstra grafoRed 0 24).1 =
      .ok (some 129) [0, 1, 2, 7, 12, 13, 18, 19, 24]
        ([0, 1, 2, 7, 12, 13, 18, 19, 24] : List Node).length ∧
    ([0, 1, 2, 7, 12, 13, 18, 19, 24] : List Node).head? = some 0 ∧
    ([0, 1, 2, 7, 12, 13, 18, 19, 24] : List Node).getLast? = some 24 ∧
    (∀ c, EsCamino grafoRed 0 24 c → 129 ≤ c) ∧ 129 ≤ 132 := by
  have hruta : EsCamino grafoRed 0 24
      (15 + (12 + (18 + (14 + (17 + (18 + (20 + (18 + 0)))))))) :=
    .cons (by decide) (show grafoRed.pesos (0, 1) = some 15 by decide)
    (.cons (by decide) (show grafoRed.pesos (1, 2) = some 12 by decide)
    (.cons (by decide) (show grafoRed.pesos (2, 3) = some 18 by decide)
    (.cons (by decide) (show grafoRed.pesos (3, 4) = some 14 by decide)
    (.cons (by decide) (show grafoRed.pesos (4, 9) = some 17 by decide)
    (.cons (by decide) (show grafoRed.pesos (9, 14) = some 18 by decide)
    (.cons (by decide) (show grafoRed.pesos (14, 19) = some 20 by decide)
    (.cons (by decide) (show grafoRed.pesos (19, 24) = some 18 by decide)
    (.nil 24))))))))
  have hcomp : (dijkstra grafoRed 0 24).1 =
      .ok (some 129) [0, 1, 2, 7, 12, 13, 18, 19, 24] 9 := by decide
  obtain ⟨n, camino, heq, _, _, _, _, _, hmin⟩ :=
    dijkstra_alcanzable (buildGrafo_WF aristas_red) (by decide) (by decide) ⟨_, hruta⟩
  have hn : n = 129 := by
    have h := hcomp.symm.trans heq
    injection h with h1 _ _
    exact (Option.some.inj h1).symm
  subst hn
  exact ⟨hcomp, rfl, rfl, hmin, by omega⟩

/-- C8: for every finite well-formed graph and source/target in the node set,
`dijkstra` terminates normally: the main loop ends by the early exit or by
exhausting the frontier within the modelled fuel, the predecessor walk ends at
a parentless node, and a triple is returned (no fuel exhaustion, no exception). -/
theorem claim_C8 (g : Grafo) (hwf : g.WF) (origen destino : Node)
    (ho : origen ∈ g.vertices) (hd : destino ∈ g.vertices) :
    ∃ r1 r2 r3, (dijkstra g origen destino).1 = .ok r1 r2 r3 :=
  dijkstra_termina hwf ho hd

theorem claim_C8_witness :
    ∃ r1 r2 r3, (dijkstra (buildGrafo [(0, 1, 5)]) 0 1).1 = .ok r1 r2 r3 :=
  claim_C8 (buildGrafo [(0, 1, 5)]) (buildGrafo_WF _) 0 1 (by decide) (by decide)

/-- C9: two invocations of `dijkstra` with the same source, target, and graph and
no intervening insertion return identical results: the second query runs on the
graph object left by the first (whose defaultdict may have gained empty
entries) and yields the same outcome, and the first query does not observably
alter the node set, the weights, or any observed adjacency list. -/
theorem claim_C9 (g : Grafo) (s t : Node) :
    (dijkstra (dijkstra g s t).2 s t).1 = (dijkstra g s t).1 ∧
    (dijkstra g s t).2.vertices = g.vertices ∧
    (dijkstra g s t).2.pesos = g.pesos ∧
    (∀ x, adj (dijkstra g s t).2.grafo x = adj g.grafo x) :=
  dijkstra_repetido g s t

/-- C10: for every well-formed graph, if the target is absent from the node set
then `dijkstra` raises `KeyError` instead of returning a result: when the target
differs from the source the distance lookup for the target fails, and when the
target equals an absent source the predecessor lookup during reconstruction
fails. -/
theorem claim_C10 (g : Grafo) (hwf : g.WF) (origen destino : Node)
    (hd : destino ∉ g.vertices) :
    (dijkstra g origen destino).1 = .err .keyErr := by
  by_cases h : destino = origen
  · subst h
    exact dijkstra_mismo_ausente hd
  · exact dijkstra_destino_ausente hwf hd h

theorem claim_C10_witness :
    (dijkstra (buildGrafo [(0, 1, 5)]) 0 7).1 = .err .keyErr :=
  claim_C10 (buildGrafo [(0, 1, 5)]) (buildGrafo_WF _) 0 7 (by decide)
